import Mathlib

/-!
Verification development for the Funny JSON Explorer (fje.py).

The program renders a parsed JSON value as Unicode art in one of two
styles (connector tree, bordered rectangle).  Python strings are modelled
as `List Char` (Python `list(result)` is literally a list of one-character
strings, and `len` counts code points, as `List.length` does here).  The
two node classes of each renderer family share their fields, and
`JSONBuilder.build` is independent of the factory, so a single node type
`PNode` models both families; the family is chosen by which display
function is applied, exactly as the factory chooses which class is
instantiated.  Fallible Python code (a method returning `None`, an
`IndexError`) is modelled with `Option` / `Except`.
-/

set_option maxRecDepth 8000

namespace FJE

/-- An icon family: the pair `(containerIcon, leafIcon)` of glyph strings
(`icon_family[0]`, `icon_family[1]` in fje.py).  Icons may be several code
points long, which is why they are lists and not single characters. -/
abbrev Icons := List Char × List Char

/-! ### The parsed JSON value model (input of `JSONBuilder.build`) -/

mutual
/-- A parsed JSON value as `json.load` hands it to the builder:
`dict` / `list` / `str` / `int` / `bool` / `None`.  (Numbers are modelled
as integers; only their printed decimal form matters to the program.) -/
inductive JValue where
  | obj (members : JMembers)
  | arr (elems : JElems)
  | str (s : List Char)
  | num (n : Int)
  | bool (b : Bool)
  | null

/-- The ordered key/value members of a JSON object (Python `dict.items()`
preserves insertion order). -/
inductive JMembers where
  | nil
  | cons (k : List Char) (v : JValue) (tl : JMembers)

/-- The ordered elements of a JSON array. -/
inductive JElems where
  | nil
  | cons (v : JValue) (tl : JElems)
end

/-! ### Decimal printing of numbers (Python `str`, f-strings) -/

/-- The decimal digit character for `d < 10`. -/
def digitCh (d : Nat) : Char := Char.ofNat (48 + d)

/-- Decimal digit expansion with a fuel argument (the fuel only serves to
make the recursion structural; `fuel = n + 1` always suffices because `n`
shrinks by a factor of ten every step). -/
def natStrGo : Nat → Nat → List Char
  | 0, _ => []
  | fuel + 1, n =>
      if n < 10 then [digitCh n]
      else natStrGo fuel (n / 10) ++ [digitCh (n % 10)]

/-- Decimal representation of a natural number, as Python `str` prints it. -/
def natStr (n : Nat) : List Char := natStrGo (n + 1) n

/-- Decimal representation of an integer, as Python `str` prints it. -/
def intStr (i : Int) : List Char :=
  if i < 0 then '-' :: natStr i.natAbs else natStr i.toNat

/-- The scalar stored in a leaf: Python keeps the raw value and the leaf
formats it with `f"{self.value}"`; `None` is kept as `none` because
`display` tests `self.value is None`.  Containers never reach
`create_leaf_node`. -/
def scalarStr : JValue → Option (List Char)
  | .str s => some s
  | .num n => some (intStr n)
  | .bool b => some (if b then "True".data else "False".data)
  | _ => none

/-- Python `f"{self.key}"`: a missing key prints as `None`. -/
def keyStr : Option (List Char) → List Char
  | none => "None".data
  | some s => s

/-! ### The node model -/

mutual
/-- A node of the built tree.  `leaf` models `TreeLeafNode` /
`RectangleLeafNode` (fields `icon_family`, `key`, `value`; the `level`
attribute is created dynamically by the parent's `add` and never read, so
it is an `Option Nat` that starts out `none`).  `comp` models
`TreeCompositeNode` / `RectangleCompositeNode` (fields `icon_family`,
`key`, `children`, `level`, with `level = 0` at construction).  The
`row_length` of the rectangle classes is always the default 60 (the
factories never pass it), modelled by the constant `rowLength`. -/
inductive PNode where
  | leaf (ic : Icons) (key : Option (List Char)) (value : Option (List Char))
      (level : Option Nat)
  | comp (ic : Icons) (key : Option (List Char)) (children : PNodeList)
      (level : Nat)

/-- The ordered `children` list of a composite node. -/
inductive PNodeList where
  | nil
  | cons (hd : PNode) (tl : PNodeList)
end

/-- Python `node.level = self.level + 1` — the stamp written by `add`. -/
def setLevel (l : Nat) : PNode → PNode
  | .leaf ic k v _ => .leaf ic k v (some l)
  | .comp ic k cs _ => .comp ic k cs l

/-- Append at the end of a children list (`self.children.append(node)`). -/
def snocN : PNodeList → PNode → PNodeList
  | .nil, c => .cons c .nil
  | .cons h t, c => .cons h (snocN t c)

/-- Model of `CompositeNode.add`: stamp the child's level from the parent's
*current* level and append it (identical in both renderer families). -/
def addNode : PNode → PNode → PNode
  | .comp ic k cs lv, child => .comp ic k (snocN cs (setLevel (lv + 1) child)) lv
  | n, _ => n

/-! ### The builder (`JSONBuilder.build`) -/

mutual
/-- Model of `JSONBuilder.build(json_data, key)`: dict → composite with one child
per member, list → composite with one child per element labelled
`f"{key}[{i}]"`, anything else → leaf. -/
def build (ic : Icons) : JValue → Option (List Char) → PNode
  | .obj ms, key => buildMembers ic (PNode.comp ic key .nil 0) ms
  | .arr es, key => buildElems ic (PNode.comp ic key .nil 0) key 0 es
  | v, key => PNode.leaf ic key (scalarStr v) none

/-- The `for k, v in json_data.items()` loop of `build`. -/
def buildMembers (ic : Icons) : PNode → JMembers → PNode
  | n, .nil => n
  | n, .cons k v tl => buildMembers ic (addNode n (build ic v (some k))) tl

/-- The `for i, v in enumerate(json_data)` loop of `build`. -/
def buildElems (ic : Icons) : PNode → Option (List Char) → Nat → JElems → PNode
  | n, _, _, .nil => n
  | n, key, i, .cons v tl =>
      buildElems ic
        (addNode n (build ic v (some (keyStr key ++ "[".data ++ natStr i ++ "]".data))))
        key (i + 1) tl
end

/-! ### Shared display helpers -/

/-- Python `node_prefix = '└─' if is_last else '├─'`. -/
def conn (isLast : Bool) : List Char := if isLast then "└─".data else "├─".data

/-- Python whitespace test used by `str.rstrip()` (space, tab, newline,
carriage return are the ones that can occur here). -/
def pyWS (c : Char) : Bool := c.isWhitespace

/-- Python `result.rstrip()`: remove the maximal whitespace suffix. -/
def pythonRstrip (l : List Char) : List Char := (l.reverse.dropWhile pyWS).reverse

/-! ### The tree renderer -/

mutual
/-- Model of `TreeLeafNode.display` / `TreeCompositeNode.display` from fje.py. -/
def treeDisplay (n : PNode) (pre : List Char) (isLast : Bool) : List Char :=
  match n with
  | .leaf ic key value _ =>
      match value with
      | none => pre ++ conn isLast ++ ic.2 ++ keyStr key
      | some v => pre ++ conn isLast ++ ic.2 ++ keyStr key ++ ": ".data ++ v
  | .comp ic key cs lv =>
      let head := if lv = 0 then [] else pre ++ conn isLast ++ ic.1 ++ keyStr key ++ ['\n']
      let cp := if lv = 0 then [] else (if isLast then "   ".data else "│  ".data)
      pythonRstrip (head ++ treeLoop cs (pre ++ cp))
  termination_by structural n

/-- The `for i, child in enumerate(self.children)` loop of
`TreeCompositeNode.display`; `child_is_last = (i == len(children) - 1)`
is exactly "the tail is empty". -/
def treeLoop (l : PNodeList) (cp : List Char) : List Char :=
  match l with
  | .nil => []
  | .cons c .nil => treeDisplay c cp true ++ ['\n']
  | .cons c (.cons d tl) =>
      treeDisplay c cp false ++ ['\n'] ++ treeLoop (.cons d tl) cp
  termination_by structural l
end

/-! ### The rectangle renderer -/

/-- The fixed row width `W`: the `row_length = 60` constructor default,
which the rectangle factory never overrides. -/
def rowLength : Nat := 60

/-- Python `'─' * n` (Python gives `''` for negative counts; `Nat` subtraction at
the call sites does the same). -/
def fill (n : Nat) : List Char := List.replicate n '─'

/-- Python `str(x)` applied to a child's display result: the value `None`
prints as the four characters `None`. -/
def strOpt : Option (List Char) → List Char
  | none => "None".data
  | some s => s

/-- Resolution of a Python sequence index (negative indices count from the
end; out-of-range raises `IndexError`, modelled as `none`). -/
def pyIdx (n : Nat) (i : Int) : Option Nat :=
  let j : Int := if i < 0 then i + n else i
  if _h : 0 ≤ j ∧ j < n then some j.toNat else none

/-- Python `result_list[i]` (read). -/
def getAt (l : List Char) (i : Int) : Option Char :=
  match pyIdx l.length i with
  | none => none
  | some j => l[j]?

/-- Python `result_list[i] = c` (write). -/
def setAt (l : List Char) (i : Int) (c : Char) : Option (List Char) :=
  match pyIdx l.length i with
  | none => none
  | some j => some (l.set j c)

/-- The `for i in range(-row_length-1, -1)` scan of
`RectangleCompositeNode.display`, lines 144-150 of fje.py: guide glyphs
become `┴`, blanks become `─`, and the loop breaks when the cell equals
one of the icon strings (an equality that can only hold for a
one-character icon).  Note the order of the `elif` tests: the blank test
comes *before* the icon test. -/
def scanLoop (ic : Icons) : Nat → Int → List Char → Option (List Char)
  | 0, _, l => some l
  | k + 1, i, l =>
      match getAt l i with
      | none => none
      | some c =>
        if c = '│' ∨ c = '├' ∨ c = '└' then
          match setAt l i '┴' with
          | none => none
          | some l2 => scanLoop ic k (i + 1) l2
        else if c = ' ' then
          match setAt l i '─' with
          | none => none
          | some l2 => scanLoop ic k (i + 1) l2
        else if [c] = ic.1 ∨ [c] = ic.2 then some l
        else scanLoop ic k (i + 1) l

/-- Modelled from the spec, for comparison with `scanLoop` (claim C4): the
spec's scan stops at an icon glyph *first* ("the scan stops as soon as it
encounters either icon glyph"), and only otherwise rewrites guide glyphs
to `┴` and blanks to `─`. -/
def scanLoopSpec (ic : Icons) : Nat → Int → List Char → Option (List Char)
  | 0, _, l => some l
  | k + 1, i, l =>
      match getAt l i with
      | none => none
      | some c =>
        if [c] = ic.1 ∨ [c] = ic.2 then some l
        else if c = '│' ∨ c = '├' ∨ c = '└' then
          match setAt l i '┴' with
          | none => none
          | some l2 => scanLoopSpec ic k (i + 1) l2
        else if c = ' ' then
          match setAt l i '─' with
          | none => none
          | some l2 => scanLoopSpec ic k (i + 1) l2
        else scanLoopSpec ic k (i + 1) l

/-- The root-only border stitching of `RectangleCompositeNode.display`
(lines 138-151): the four corner writes followed by the bottom-border
scan.  `none` models an `IndexError`. -/
def stitch (ic : Icons) (r0 : List Char) : Option (List Char) := do
  let r1 ← setAt r0 0 '┌'
  let r2 ← setAt r1 (rowLength : Int) '┐'
  let r3 ← setAt r2 (-2) '┘'
  let r4 ← setAt r3 (-(rowLength : Int) - 2) '└'
  scanLoop ic rowLength (-(rowLength : Int) - 1) r4

mutual
/-- Model of `RectangleLeafNode.display` / `RectangleCompositeNode.display`.  The
result distinguishes the two failure channels of the Python code: the
outer `Except` is a raised `IndexError` (only possible through `stitch`),
the inner `Option` is the method returning the value `None` (the unfit
leaf row falls off the end of the method body). -/
def rectDisplay (n : PNode) (pre : List Char) (isLast : Bool) :
    Except Unit (Option (List Char)) :=
  match n with
  | .leaf ic key value _ =>
      .ok (match value with
        | none =>
            let row := pre ++ conn isLast ++ ic.2 ++ keyStr key
            if row.length < rowLength then
              some (row ++ fill (rowLength - row.length - 1) ++ "─┤".data)
            else none
        | some v =>
            let row := pre ++ conn isLast ++ ic.2 ++ keyStr key ++ ": ".data ++ v
            if row.length < rowLength then
              some (row ++ fill (rowLength - row.length - 1) ++ "─┤".data)
            else none)
  | .comp ic key cs lv =>
      let head := if lv = 0 then []
        else
          let row := pre ++ "├─".data ++ ic.1 ++ keyStr key
          row ++ fill (rowLength - row.length - 1) ++ "─┤".data ++ ['\n']
      let cp := if lv = 0 then [] else "│  ".data
      match rectLoop cs (pre ++ cp) with
      | .error e => .error e
      | .ok body =>
          let result := head ++ body
          if lv = 0 then
            match stitch ic result with
            | none => .error ()
            | some r => .ok (some (pythonRstrip r))
          else .ok (some (pythonRstrip result))
  termination_by structural n

/-- The children loop of `RectangleCompositeNode.display`: each child's
display result is passed through `str(...)` and followed by `'\n'`. -/
def rectLoop (l : PNodeList) (cp : List Char) : Except Unit (List Char) :=
  match l with
  | .nil => .ok []
  | .cons c .nil =>
      match rectDisplay c cp true with
      | .error e => .error e
      | .ok o => .ok (strOpt o ++ ['\n'])
  | .cons c (.cons d tl) =>
      match rectDisplay c cp false with
      | .error e => .error e
      | .ok o =>
          match rectLoop (.cons d tl) cp with
          | .error e => .error e
          | .ok rest => .ok (strOpt o ++ ['\n'] ++ rest)
  termination_by structural l
end

/-! ### Object-state threading versions of the renderers (claim C8)

Each Python `display` call is modelled again, this time returning the
node object as it stands after the call, with every attribute write the
method performs applied (the methods perform none, but that is the fact
to be proved, not assumed: the children list is rebuilt from the
recursively threaded children). -/

mutual
/-- Version of `treeDisplay` with the receiver's post-call state threaded through. -/
def treeDisplayM : PNode → List Char → Bool → List Char × PNode
  | .leaf ic key value lv, pre, isLast =>
      (match value with
       | none => pre ++ conn isLast ++ ic.2 ++ keyStr key
       | some v => pre ++ conn isLast ++ ic.2 ++ keyStr key ++ ": ".data ++ v,
       .leaf ic key value lv)
  | .comp ic key cs lv, pre, isLast =>
      let head := if lv = 0 then [] else pre ++ conn isLast ++ ic.1 ++ keyStr key ++ ['\n']
      let cp := if lv = 0 then [] else (if isLast then "   ".data else "│  ".data)
      let p := treeLoopM cs (pre ++ cp)
      (pythonRstrip (head ++ p.1), .comp ic key p.2 lv)

/-- The children loop of `treeDisplayM`. -/
def treeLoopM : PNodeList → List Char → List Char × PNodeList
  | .nil, _ => ([], .nil)
  | .cons c .nil, cp =>
      let p := treeDisplayM c cp true
      (p.1 ++ ['\n'], .cons p.2 .nil)
  | .cons c (.cons d tl), cp =>
      let p := treeDisplayM c cp false
      let q := treeLoopM (.cons d tl) cp
      (p.1 ++ ['\n'] ++ q.1, .cons p.2 q.2)
end

mutual
/-- Version of `rectDisplay` with the receiver's post-call state threaded through. -/
def rectDisplayM : PNode → List Char → Bool → Except Unit (Option (List Char)) × PNode
  | .leaf ic key value lv, pre, isLast =>
      (.ok (match value with
        | none =>
            let row := pre ++ conn isLast ++ ic.2 ++ keyStr key
            if row.length < rowLength then
              some (row ++ fill (rowLength - row.length - 1) ++ "─┤".data)
            else none
        | some v =>
            let row := pre ++ conn isLast ++ ic.2 ++ keyStr key ++ ": ".data ++ v
            if row.length < rowLength then
              some (row ++ fill (rowLength - row.length - 1) ++ "─┤".data)
            else none),
       .leaf ic key value lv)
  | .comp ic key cs lv, pre, _isLast =>
      let head := if lv = 0 then []
        else
          let row := pre ++ "├─".data ++ ic.1 ++ keyStr key
          row ++ fill (rowLength - row.length - 1) ++ "─┤".data ++ ['\n']
      let cp := if lv = 0 then [] else "│  ".data
      let p := rectLoopM cs (pre ++ cp)
      (match p.1 with
       | .error e => .error e
       | .ok body =>
          let result := head ++ body
          if lv = 0 then
            match stitch ic result with
            | none => .error ()
            | some r => .ok (some (pythonRstrip r))
          else .ok (some (pythonRstrip result)),
       .comp ic key p.2 lv)

/-- The children loop of `rectDisplayM`. -/
def rectLoopM : PNodeList → List Char → Except Unit (List Char) × PNodeList
  | .nil, _ => (.ok [], .nil)
  | .cons c .nil, cp =>
      let p := rectDisplayM c cp true
      (match p.1 with
       | .error e => .error e
       | .ok o => .ok (strOpt o ++ ['\n']),
       .cons p.2 .nil)
  | .cons c (.cons d tl), cp =>
      let p := rectDisplayM c cp false
      let q := rectLoopM (.cons d tl) cp
      (match p.1 with
       | .error e => .error e
       | .ok o =>
          match q.1 with
          | .error e => .error e
          | .ok rest => .ok (strOpt o ++ ['\n'] ++ rest),
       .cons p.2 q.2)
end

/-! ### Line decomposition of rendered output -/

/-- Split a text into its lines (the semantics of Python
`text.split('\n')`): `lines [] = [[]]`, and every `'\n'` separates two
lines. -/
def lines : List Char → List (List Char)
  | [] => [[]]
  | c :: t =>
      if c = '\n' then [] :: lines t
      else
        match lines t with
        | [] => [[c]]
        | ℓ :: r => (c :: ℓ) :: r

/-- Join lines back with `'\n'` separators (inverse of `lines`). -/
def joinNL : List (List Char) → List Char
  | [] => []
  | [ℓ] => ℓ
  | ℓ :: l2 :: tl => ℓ ++ '\n' :: joinNL (l2 :: tl)

/-- Join lines, each terminated by `'\n'` (the shape of the rectangle
composite's accumulated `result` before stitching). -/
def chunks : List (List Char) → List Char
  | [] => []
  | ℓ :: tl => ℓ ++ '\n' :: chunks tl

/-! ### Decidable predicates on values, nodes and output -/

/-- No line break among the characters. -/
def nlFree (l : List Char) : Bool := l.all (fun c => c != '\n')

mutual
/-- No line break in any key, string value or icon of the value. -/
def noNLj : JValue → Bool
  | .obj ms => noNLjM ms
  | .arr es => noNLjE es
  | .str s => nlFree s
  | _ => true

/-- Check `noNLj` over object members. -/
def noNLjM : JMembers → Bool
  | .nil => true
  | .cons k v tl => nlFree k && noNLj v && noNLjM tl

/-- Check `noNLj` over array elements. -/
def noNLjE : JElems → Bool
  | .nil => true
  | .cons v tl => noNLj v && noNLjE tl
end

mutual
/-- No line break in any key, value or icon stored in the (sub)tree. -/
def noNLn : PNode → Bool
  | .leaf ic key value _ =>
      nlFree ic.2 && nlFree (keyStr key) &&
      (match value with | none => true | some v => nlFree v)
  | .comp ic key cs _ => nlFree ic.1 && nlFree (keyStr key) && noNLl cs

/-- Check `noNLn` over a children list. -/
def noNLl : PNodeList → Bool
  | .nil => true
  | .cons c tl => noNLn c && noNLl tl
end

mutual
/-- Every composite in the (sub)tree, itself included, has `level ≠ 0`
(true of every strict subtree the builder produces). -/
def allNZ : PNode → Bool
  | .leaf _ _ _ _ => true
  | .comp _ _ cs lv => (lv != 0) && allNZl cs

/-- Check `allNZ` over a children list. -/
def allNZl : PNodeList → Bool
  | .nil => true
  | .cons c tl => allNZ c && allNZl tl
end

/-- The node's stamped level equals `t` (a leaf's dynamically created
attribute must exist and equal `t`). -/
def nodeLevelEq (t : Nat) : PNode → Bool
  | .leaf _ _ _ lv => lv == some t
  | .comp _ _ _ lv => lv == t

mutual
/-- Every node strictly below this one has level exactly 1. -/
def subLevelsOne : PNode → Bool
  | .leaf _ _ _ _ => true
  | .comp _ _ cs _ => kidsLevelsOne cs

/-- Check `subLevelsOne` over a children list, also checking each child's own
level. -/
def kidsLevelsOne : PNodeList → Bool
  | .nil => true
  | .cons c tl => nodeLevelEq 1 c && subLevelsOne c && kidsLevelsOne tl
end

/-- The root's level as the builder leaves it: `0` for a composite (set
in `__init__`), absent for a leaf (no `add` ever ran on it). -/
def rootLevelOK : PNode → Bool
  | .leaf _ _ _ lv => lv == none
  | .comp _ _ _ lv => lv == 0

mutual
/-- The claim C1 monotonicity property: every child's level equals its
parent's level plus one, recursively. -/
def levelsMono : PNode → Bool
  | .leaf _ _ _ _ => true
  | .comp _ _ cs lv => levelsMonoKids lv cs

/-- Check `levelsMono` over the children of a composite of level `lv`. -/
def levelsMonoKids (lv : Nat) : PNodeList → Bool
  | .nil => true
  | .cons c tl => nodeLevelEq (lv + 1) c && levelsMono c && levelsMonoKids lv tl
end

/-- The direct children of this node (only) have level = parent level + 1. -/
def firstLayer (lv : Nat) : PNodeList → Bool
  | .nil => true
  | .cons c tl => nodeLevelEq (lv + 1) c && firstLayer lv tl

/-- Check `levelsMono` restricted to the root's direct children. -/
def rootChildrenMono : PNode → Bool
  | .leaf _ _ _ _ => true
  | .comp _ _ cs lv => firstLayer lv cs

/-- Is the node a composite? -/
def isComposite : PNode → Bool
  | .comp _ _ _ _ => true
  | _ => false

/-- Is the JSON value an object or an array? -/
def isContainerJ : JValue → Bool
  | .obj _ => true
  | .arr _ => true
  | _ => false

/-- Does the (composite) node have at least one child? -/
def hasKids : PNode → Bool
  | .comp _ _ (.cons _ _) _ => true
  | _ => false

mutual
/-- Number of subvalues of a JSON value (each object, array, scalar and
null counts once). -/
def jcount : JValue → Nat
  | .obj ms => 1 + jcountM ms
  | .arr es => 1 + jcountE es
  | _ => 1

/-- Sum of `jcount` over object members. -/
def jcountM : JMembers → Nat
  | .nil => 0
  | .cons _ v tl => jcount v + jcountM tl

/-- Sum of `jcount` over array elements. -/
def jcountE : JElems → Nat
  | .nil => 0
  | .cons v tl => jcount v + jcountE tl
end

mutual
/-- Number of nodes in a built tree. -/
def pcount : PNode → Nat
  | .leaf _ _ _ _ => 1
  | .comp _ _ cs _ => 1 + pcountL cs

/-- Sum of `pcount` over a children list. -/
def pcountL : PNodeList → Nat
  | .nil => 0
  | .cons c tl => pcount c + pcountL tl
end

mutual
/-- Rectangle well-formedness relative to the accumulated continuation
marker `pre`: no line breaks anywhere, and every constructed row is
strictly shorter than `rowLength` (so no leaf falls into the unfit-row
case).  The recursion extends `pre` exactly as
`RectangleCompositeNode.display` does. -/
def rectOK (pre : List Char) (n : PNode) : Bool :=
  match n with
  | .leaf ic key value _ =>
      nlFree pre && nlFree ic.2 && nlFree (keyStr key) &&
      (match value with
       | none => decide ((pre ++ conn true ++ ic.2 ++ keyStr key).length < rowLength)
       | some v =>
           nlFree v &&
           decide ((pre ++ conn true ++ ic.2 ++ keyStr key ++ ": ".data ++ v).length
             < rowLength))
  | .comp ic key cs lv =>
      if lv = 0 then rectOKl pre cs
      else
        nlFree pre && nlFree ic.1 && nlFree (keyStr key) &&
        decide ((pre ++ "├─".data ++ ic.1 ++ keyStr key).length < rowLength) &&
        rectOKl (pre ++ "│  ".data) cs
  termination_by structural n

/-- Check `rectOK` over a children list. -/
def rectOKl (pre : List Char) (l : PNodeList) : Bool :=
  match l with
  | .nil => true
  | .cons c tl => rectOK pre c && rectOKl pre tl
  termination_by structural l
end

/-- Every line of the text has exactly `n` characters. -/
def allLinesLen (n : Nat) (s : List Char) : Bool :=
  (lines s).all (fun ℓ => ℓ.length == n)

/-- Extract the successfully rendered text (empty on error / `None`). -/
def outOf : Except Unit (Option (List Char)) → List Char
  | .ok (some s) => s
  | _ => []

/-- Does `pat` occur at the start of `s`? -/
def startsWith : List Char → List Char → Bool
  | _, [] => true
  | [], _ :: _ => false
  | c :: s, p :: ps => (c == p) && startsWith s ps

/-- Does `pat` occur contiguously anywhere in `s`? -/
def containsSub : List Char → List Char → Bool
  | [], pat => startsWith [] pat
  | c :: t, pat => startsWith (c :: t) pat || containsSub t pat

/-- Collapse a level to its only observable content, the `level == 0`
test. -/
def normLevel (l : Nat) : Nat := if l = 0 then 0 else 1

/-- Length of a children list (`len(self.children)`). -/
def plen : PNodeList → Nat
  | .nil => 0
  | .cons _ tl => 1 + plen tl

/-- The `i`-th child of a children list. -/
def nthChild : PNodeList → Nat → Option PNode
  | .nil, _ => none
  | .cons c _, 0 => some c
  | .cons _ tl, k + 1 => nthChild tl k

/-- A continuation-marker string: a concatenation of the two 3-character
blocks `"   "` and `"│  "` that the tree renderer hands down to
children. -/
def isGuide : List Char → Bool
  | [] => true
  | '│' :: ' ' :: ' ' :: tl => isGuide tl
  | ' ' :: ' ' :: ' ' :: tl => isGuide tl
  | _ => false

/-- A line of tree-rendered output below some node rendered with
continuation marker `pre`: the inherited marker, then a guide extension,
then one of the two connectors `└─` / `├─`. -/
def PLine (pre ℓ : List Char) : Prop :=
  ∃ g r, isGuide g = true ∧
    (ℓ = pre ++ g ++ conn true ++ r ∨ ℓ = pre ++ g ++ conn false ++ r)

/-- Every line of `s` is a `PLine pre` line. -/
def GoodLines (pre s : List Char) : Prop := ∀ ℓ ∈ lines s, PLine pre ℓ

/-- A text of exactly `m` rows of 61 visible characters, each terminated
by `'\n'`: character `j` is `'\n'` exactly when `j % 62 = 61`. -/
def LinedP (m : Nat) (r : List Char) : Prop :=
  r.length = 62 * m ∧ ∀ j, j < r.length → (r[j]? = some '\n' ↔ j % 62 = 61)

/-- A well-formed pre-stitch rectangle line: exactly `rowLength + 1`
characters, no line break, ending in the right-border glyph `┤`. -/
def rectLine (ℓ : List Char) : Bool :=
  (ℓ.length == rowLength + 1) && nlFree ℓ && (ℓ.getLast? == some '┤')

/-! ### Concrete inputs used by counterexamples and witnesses -/

/-- The default icon family `(' ', ' ')` of the theme table. -/
def icDefault : Icons := (" ".data, " ".data)

/-- Input `{"a": {"b": 1}}` — a two-deep nesting. -/
def jNested : JValue :=
  .obj (.cons "a".data (.obj (.cons "b".data (.num 1) .nil)) .nil)

/-- Input `{"a": 1, "b": 2}` — two scalar members. -/
def jTwo : JValue :=
  .obj (.cons "a".data (.num 1) (.cons "b".data (.num 2) .nil))

/-- A 60-character key, making the rectangle leaf row unfit. -/
def longKey : List Char :=
  "kkkkkkkkkkkkkkkkkkkkkkkkkkkkkkkkkkkkkkkkkkkkkkkkkkkkkkkkkkkk".data

/-- Input `{"a": 1, "<60 k's>": 2, "b": 3}` — a fit row, an unfit row, a fit
row. -/
def jUnfit : JValue :=
  .obj (.cons "a".data (.num 1)
    (.cons longKey (.num 2) (.cons "b".data (.num 3) .nil)))

/-- Input `{"a\nb": 1}` — an object key containing a line break. -/
def jNLKey : JValue := .obj (.cons ['a', '\n', 'b'] (.num 1) .nil)

/-- A rendered rectangle line followed by `'\n'`, as fed to the
border-stitching scan: `└─ a: 1` padded to 61 columns ending in `─┤`. -/
def scanInput : List Char :=
  "└─ a: 1".data ++ List.replicate 52 '─' ++ "─┤\n".data

/-! ## Theorems -/

/-! ### Builder structure lemmas -/

theorem subLevelsOne_setLevel (l : Nat) (n : PNode) :
    subLevelsOne (setLevel l n) = subLevelsOne n := by
  cases n <;> simp [setLevel, subLevelsOne]

theorem nodeLevelEq_setLevel (l : Nat) (n : PNode) :
    nodeLevelEq l (setLevel l n) = true := by
  cases n <;> simp [setLevel, nodeLevelEq]

theorem noNLn_setLevel (l : Nat) (n : PNode) : noNLn (setLevel l n) = noNLn n := by
  cases n <;> simp [setLevel, noNLn]

theorem pcount_setLevel (l : Nat) (n : PNode) : pcount (setLevel l n) = pcount n := by
  cases n <;> simp [setLevel, pcount]

theorem kidsLevelsOne_snocN (cs : PNodeList) (c : PNode) :
    kidsLevelsOne (snocN cs c) =
      (kidsLevelsOne cs && (nodeLevelEq 1 c && subLevelsOne c)) := by
  cases cs with
  | nil => simp [snocN, kidsLevelsOne]
  | cons h t =>
      have ih := kidsLevelsOne_snocN t c
      simp [snocN, kidsLevelsOne, ih, Bool.and_assoc]
  termination_by structural cs

theorem noNLl_snocN (cs : PNodeList) (c : PNode) :
    noNLl (snocN cs c) = (noNLl cs && noNLn c) := by
  cases cs with
  | nil => simp [snocN, noNLl]
  | cons h t =>
      have ih := noNLl_snocN t c
      simp [snocN, noNLl, ih, Bool.and_assoc]
  termination_by structural cs

theorem pcountL_snocN (cs : PNodeList) (c : PNode) :
    pcountL (snocN cs c) = pcountL cs + pcount c := by
  cases cs with
  | nil => simp [snocN, pcountL, pcount]
  | cons h t =>
      have ih := pcountL_snocN t c
      simp [snocN, pcountL, ih]
      omega
  termination_by structural cs

theorem firstLayer_of_kidsLevelsOne (cs : PNodeList)
    (h : kidsLevelsOne cs = true) : firstLayer 0 cs = true := by
  cases cs with
  | nil => simp [firstLayer]
  | cons c t =>
      simp [kidsLevelsOne] at h
      simp [firstLayer, h.1.1, firstLayer_of_kidsLevelsOne t h.2]
  termination_by structural cs

/-- Appending a freshly stamped, internally well-levelled child keeps the
children list well-levelled. -/
theorem kids_snoc_one (cs : PNodeList) (c : PNode) (h : kidsLevelsOne cs = true)
    (hc : subLevelsOne c = true) :
    kidsLevelsOne (snocN cs (setLevel 1 c)) = true := by
  rw [kidsLevelsOne_snocN, h, nodeLevelEq_setLevel, subLevelsOne_setLevel, hc]
  rfl

mutual
theorem allNZ_of_levelOne (n : PNode) (h1 : nodeLevelEq 1 n = true)
    (h2 : subLevelsOne n = true) : allNZ n = true := by
  cases n with
  | leaf ic k v lv => simp [allNZ]
  | comp ic k cs lv =>
      simp [nodeLevelEq] at h1
      simp [subLevelsOne] at h2
      simp [allNZ, h1, allNZl_of_kidsLevelsOne cs h2]
  termination_by structural n

theorem allNZl_of_kidsLevelsOne (cs : PNodeList)
    (h : kidsLevelsOne cs = true) : allNZl cs = true := by
  cases cs with
  | nil => simp [allNZl]
  | cons c t =>
      simp [kidsLevelsOne] at h
      simp [allNZl, allNZ_of_levelOne c h.1.1 h.1.2, allNZl_of_kidsLevelsOne t h.2]
  termination_by structural cs
end

mutual
theorem buildMembers_shape (ic : Icons) (ms : JMembers) (a : Icons)
    (b : Option (List Char)) (cs : PNodeList) (lv : Nat) :
    ∃ cs2, buildMembers ic (.comp a b cs lv) ms = .comp a b cs2 lv := by
  cases ms with
  | nil => exact ⟨cs, rfl⟩
  | cons k v tl =>
      simpa [buildMembers, addNode] using
        buildMembers_shape ic tl a b
          (snocN cs (setLevel (lv + 1) (build ic v (some k)))) lv
  termination_by structural ms

theorem buildElems_shape (ic : Icons) (es : JElems) (a : Icons)
    (b : Option (List Char)) (cs : PNodeList) (lv : Nat) (key : Option (List Char))
    (i : Nat) :
    ∃ cs2, buildElems ic (.comp a b cs lv) key i es = .comp a b cs2 lv := by
  cases es with
  | nil => exact ⟨cs, rfl⟩
  | cons v tl =>
      simpa [buildElems, addNode] using
        buildElems_shape ic tl a b
          (snocN cs (setLevel (lv + 1)
            (build ic v (some (keyStr key ++ "[".data ++ natStr i ++ "]".data))))) lv
          key (i + 1)
  termination_by structural es
end

mutual
theorem build_levels (ic : Icons) (j : JValue) (k : Option (List Char)) :
    subLevelsOne (build ic j k) = true ∧ rootLevelOK (build ic j k) = true := by
  cases j with
  | obj ms => exact buildMembers_levels ic ms k .nil (by simp [kidsLevelsOne])
  | arr es => exact buildElems_levels ic es k .nil k 0 (by simp [kidsLevelsOne])
  | str s => simp [build, subLevelsOne, rootLevelOK]
  | num n => simp [build, subLevelsOne, rootLevelOK]
  | bool b => simp [build, subLevelsOne, rootLevelOK]
  | null => simp [build, subLevelsOne, rootLevelOK]
  termination_by structural j

theorem buildMembers_levels (ic : Icons) (ms : JMembers) (kk : Option (List Char))
    (cs : PNodeList) (h : kidsLevelsOne cs = true) :
    subLevelsOne (buildMembers ic (.comp ic kk cs 0) ms) = true ∧
    rootLevelOK (buildMembers ic (.comp ic kk cs 0) ms) = true := by
  cases ms with
  | nil => simpa [buildMembers, subLevelsOne, rootLevelOK] using h
  | cons k v tl =>
      have res := buildMembers_levels ic tl kk
        (snocN cs (setLevel 1 (build ic v (some k))))
        (kids_snoc_one cs _ h (build_levels ic v (some k)).1)
      simpa [buildMembers, addNode] using res
  termination_by structural ms

theorem buildElems_levels (ic : Icons) (es : JElems) (kk : Option (List Char))
    (cs : PNodeList) (key : Option (List Char)) (i : Nat)
    (h : kidsLevelsOne cs = true) :
    subLevelsOne (buildElems ic (.comp ic kk cs 0) key i es) = true ∧
    rootLevelOK (buildElems ic (.comp ic kk cs 0) key i es) = true := by
  cases es with
  | nil => simpa [buildElems, subLevelsOne, rootLevelOK] using h
  | cons v tl =>
      have res := buildElems_levels ic tl kk
        (snocN cs (setLevel 1
          (build ic v (some (keyStr key ++ "[".data ++ natStr i ++ "]".data)))))
        key (i + 1)
        (kids_snoc_one cs _ h (build_levels ic v _).1)
      simpa [buildElems, addNode] using res
  termination_by structural es
end

theorem nlFree_append (a b : List Char) : nlFree (a ++ b) = (nlFree a && nlFree b) := by
  simp [nlFree, List.all_append]

theorem digitCh_ne_nl (d : Nat) (h : d < 10) : (digitCh d != '\n') = true := by
  interval_cases d <;> decide

theorem nlFree_cons (c : Char) (l : List Char) :
    nlFree (c :: l) = ((c != '\n') && nlFree l) := by
  simp [nlFree]

theorem natStrGo_nlFree (fuel n : Nat) : nlFree (natStrGo fuel n) = true := by
  induction fuel generalizing n with
  | zero => rfl
  | succ f ih =>
      by_cases h : n < 10
      · simp only [natStrGo, if_pos h]
        have := digitCh_ne_nl n h
        simp [nlFree_cons, this, nlFree]
      · simp only [natStrGo, if_neg h]
        rw [nlFree_append, ih]
        have := digitCh_ne_nl (n % 10) (by omega)
        simp [nlFree_cons, this, nlFree]

theorem natStr_nlFree (n : Nat) : nlFree (natStr n) = true := natStrGo_nlFree _ _

theorem intStr_nlFree (i : Int) : nlFree (intStr i) = true := by
  by_cases h : i < 0
  · simp only [intStr, if_pos h, nlFree_cons, natStr_nlFree]
    rfl
  · simp only [intStr, if_neg h]
    exact natStr_nlFree _

theorem scalarStr_nlFree (j : JValue) (hj : noNLj j = true) :
    (match scalarStr j with | none => true | some v => nlFree v) = true := by
  cases j with
  | str s => simpa [scalarStr, noNLj] using hj
  | num n => simpa [scalarStr] using intStr_nlFree n
  | bool b => cases b <;> simp [scalarStr] <;> rfl
  | _ => simp [scalarStr]

mutual
theorem noNLn_build (ic : Icons) (j : JValue) (k : Option (List Char))
    (hj : noNLj j = true) (h1 : nlFree ic.1 = true) (h2 : nlFree ic.2 = true)
    (hk : nlFree (keyStr k) = true) : noNLn (build ic j k) = true := by
  cases j with
  | obj ms =>
      exact noNLn_buildMembers ic ms k .nil (by simp [noNLl])
        (by simpa [noNLj] using hj) h1 h2 hk
  | arr es =>
      exact noNLn_buildElems ic es k .nil k 0 (by simp [noNLl])
        (by simpa [noNLj] using hj) h1 h2 hk hk
  | str s =>
      simp [build, noNLn, h2, hk, scalarStr]
      simpa [noNLj] using hj
  | num n => simp [build, noNLn, h2, hk, scalarStr, intStr_nlFree]
  | bool b => cases b <;> simp [build, noNLn, h2, hk, scalarStr] <;> decide
  | null => simp [build, noNLn, h2, hk, scalarStr]
  termination_by structural j

theorem noNLn_buildMembers (ic : Icons) (ms : JMembers) (kk : Option (List Char))
    (cs : PNodeList) (hcs : noNLl cs = true) (hms : noNLjM ms = true)
    (h1 : nlFree ic.1 = true) (h2 : nlFree ic.2 = true)
    (hkk : nlFree (keyStr kk) = true) :
    noNLn (buildMembers ic (.comp ic kk cs 0) ms) = true := by
  cases ms with
  | nil => simp [buildMembers, noNLn, h1, hkk, hcs]
  | cons k v tl =>
      simp [noNLjM] at hms
      have hchild : noNLn (build ic v (some k)) = true :=
        noNLn_build ic v (some k) hms.1.2 h1 h2 (by simpa [keyStr] using hms.1.1)
      have hcs2 : noNLl (snocN cs (setLevel 1 (build ic v (some k)))) = true := by
        rw [noNLl_snocN, noNLn_setLevel, hcs, hchild]
        rfl
      simpa [buildMembers, addNode] using
        noNLn_buildMembers ic tl kk _ hcs2 hms.2 h1 h2 hkk
  termination_by structural ms

theorem noNLn_buildElems (ic : Icons) (es : JElems) (kk : Option (List Char))
    (cs : PNodeList) (key : Option (List Char)) (i : Nat)
    (hcs : noNLl cs = true) (hes : noNLjE es = true)
    (h1 : nlFree ic.1 = true) (h2 : nlFree ic.2 = true)
    (hkk : nlFree (keyStr kk) = true) (hkey : nlFree (keyStr key) = true) :
    noNLn (buildElems ic (.comp ic kk cs 0) key i es) = true := by
  cases es with
  | nil => simp [buildElems, noNLn, h1, hkk, hcs]
  | cons v tl =>
      simp [noNLjE] at hes
      have hkc : nlFree (keyStr (some (keyStr key ++ "[".data ++ natStr i ++ "]".data)))
          = true := by
        rw [show keyStr (some (keyStr key ++ "[".data ++ natStr i ++ "]".data))
              = keyStr key ++ "[".data ++ natStr i ++ "]".data from rfl,
           nlFree_append, nlFree_append, nlFree_append, hkey, natStr_nlFree]
        rfl
      have hchild := noNLn_build ic v _ hes.1 h1 h2 hkc
      have hcs2 : noNLl (snocN cs (setLevel 1 (build ic v
          (some (keyStr key ++ "[".data ++ natStr i ++ "]".data))))) = true := by
        rw [noNLl_snocN, noNLn_setLevel, hcs, hchild]
        rfl
      simpa [buildElems, addNode] using
        noNLn_buildElems ic tl kk _ key (i + 1) hcs2 hes.2 h1 h2 hkk hkey
  termination_by structural es
end

mutual
theorem build_size (ic : Icons) (j : JValue) (k : Option (List Char)) :
    pcount (build ic j k) = jcount j := by
  cases j with
  | obj ms =>
      have := buildMembers_size ic ms k .nil 0
      simpa [build, jcount, pcountL] using this
  | arr es =>
      have := buildElems_size ic es k .nil 0 k 0
      simpa [build, jcount, pcountL] using this
  | str s => simp [build, pcount, jcount]
  | num n => simp [build, pcount, jcount]
  | bool b => simp [build, pcount, jcount]
  | null => simp [build, pcount, jcount]
  termination_by structural j

theorem buildMembers_size (ic : Icons) (ms : JMembers) (kk : Option (List Char))
    (cs : PNodeList) (lv : Nat) :
    pcount (buildMembers ic (.comp ic kk cs lv) ms) = 1 + pcountL cs + jcountM ms := by
  cases ms with
  | nil => simp [buildMembers, pcount, jcountM]
  | cons k v tl =>
      have ih := buildMembers_size ic tl kk
        (snocN cs (setLevel (lv + 1) (build ic v (some k)))) lv
      have hc := build_size ic v (some k)
      simp only [buildMembers, addNode, ih, pcountL_snocN, pcount_setLevel, hc, jcountM]
      omega
  termination_by structural ms

theorem buildElems_size (ic : Icons) (es : JElems) (kk : Option (List Char))
    (cs : PNodeList) (lv : Nat) (key : Option (List Char)) (i : Nat) :
    pcount (buildElems ic (.comp ic kk cs lv) key i es) = 1 + pcountL cs + jcountE es := by
  cases es with
  | nil => simp [buildElems, pcount, jcountE]
  | cons v tl =>
      have ih := buildElems_size ic tl kk
        (snocN cs (setLevel (lv + 1) (build ic v
          (some (keyStr key ++ "[".data ++ natStr i ++ "]".data))))) lv key (i + 1)
      have hc := build_size ic v (some (keyStr key ++ "[".data ++ natStr i ++ "]".data))
      simp only [buildElems, addNode, ih, pcountL_snocN, pcount_setLevel, hc, jcountE]
      omega
  termination_by structural es
end

/-! ### `pythonRstrip` lemmas -/

theorem dropWhile_append (p : Char → Bool) (a b : List Char) :
    List.dropWhile p (a ++ b) =
      if (List.dropWhile p a).isEmpty then List.dropWhile p b
      else List.dropWhile p a ++ b := by
  induction a with
  | nil => simp
  | cons c t ih =>
      by_cases h : p c
      · simpa [List.dropWhile_cons_of_pos h] using ih
      · simp [List.dropWhile_cons_of_neg h]

theorem pythonRstrip_append_nl (x : List Char) :
    pythonRstrip (x ++ ['\n']) = pythonRstrip x := by
  simp [pythonRstrip, List.dropWhile_cons_of_pos (show pyWS '\n' = true by decide)]

theorem pythonRstrip_append (x y : List Char) (hy : pythonRstrip y ≠ []) :
    pythonRstrip (x ++ y) = x ++ pythonRstrip y := by
  have h0 : (List.dropWhile pyWS y.reverse).isEmpty = false := by
    rcases hdw : List.dropWhile pyWS y.reverse with _ | ⟨c, r⟩
    · exact absurd (by simp [pythonRstrip, hdw]) hy
    · rfl
  simp [pythonRstrip, List.reverse_append, dropWhile_append, h0]

theorem pythonRstrip_idem (x : List Char) :
    pythonRstrip (pythonRstrip x) = pythonRstrip x := by
  simp [pythonRstrip, List.reverse_reverse, List.dropWhile_idempotent]

/-- Removing trailing whitespace never eats into a non-whitespace
character: the part up to and including `c` survives. -/
theorem pythonRstrip_keeps (a : List Char) (c : Char) (b : List Char)
    (hc : pyWS c = false) :
    ∃ r, pythonRstrip (a ++ c :: b) = a ++ c :: r := by
  have hrev : (a ++ c :: b).reverse = b.reverse ++ (c :: a.reverse) := by simp
  rw [pythonRstrip, hrev, dropWhile_append]
  by_cases h : (List.dropWhile pyWS b.reverse).isEmpty
  · refine ⟨[], ?_⟩
    have hneg : ¬ (pyWS c = true) := by simp [hc]
    rw [if_pos h, List.dropWhile_cons_of_neg hneg]
    simp
  · refine ⟨(List.dropWhile pyWS b.reverse).reverse, ?_⟩
    simp [h, List.reverse_append]

theorem pythonRstrip_keeps_ne (a : List Char) (c : Char) (b : List Char)
    (hc : pyWS c = false) : pythonRstrip (a ++ c :: b) ≠ [] := by
  obtain ⟨r, hr⟩ := pythonRstrip_keeps a c b hc
  simp [hr]

/-! ### `lines` lemmas -/

theorem lines_ne_nil (x : List Char) : lines x ≠ [] := by
  cases x with
  | nil => simp [lines]
  | cons c t =>
      by_cases h : c = '\n'
      · simp [lines, h]
      · simp only [lines, if_neg h]
        cases lines t <;> simp

theorem lines_append_nl (x y : List Char) :
    lines (x ++ '\n' :: y) = lines x ++ lines y := by
  induction x with
  | nil => simp [lines]
  | cons c t ih =>
      by_cases h : c = '\n'
      · simp [lines, h, ih]
      · rcases hl : lines t with _ | ⟨ℓ, r⟩
        · exact absurd hl (lines_ne_nil t)
        · have h1 : lines ((c :: t) ++ '\n' :: y)
              = match lines (t ++ '\n' :: y) with
                | [] => [[c]]
                | ℓ :: r => (c :: ℓ) :: r := by
            rw [List.cons_append, lines, if_neg h]
          have h2 : lines (c :: t) = (c :: ℓ) :: r := by
            rw [lines, if_neg h, hl]
          rw [h1, ih, hl, h2]
          rfl

theorem lines_nlFree (x : List Char) (h : nlFree x = true) : lines x = [x] := by
  induction x with
  | nil => rfl
  | cons c t ih =>
      rw [nlFree_cons] at h
      simp only [Bool.and_eq_true, bne_iff_ne] at h
      rw [lines, if_neg h.1, ih h.2]

theorem mem_lines_nlFree (x : List Char) : ∀ ℓ ∈ lines x, nlFree ℓ = true := by
  induction x with
  | nil => simp [lines, nlFree]
  | cons c t ih =>
      intro ℓ hl
      by_cases h : c = '\n'
      · rw [lines, if_pos h] at hl
        rcases List.mem_cons.1 hl with h1 | h1
        · simp [h1, nlFree]
        · exact ih ℓ h1
      · rw [lines, if_neg h] at hl
        rcases hq : lines t with _ | ⟨ℓ0, r⟩
        · exact absurd hq (lines_ne_nil t)
        · rw [hq] at hl
          rcases List.mem_cons.1 hl with h1 | h1
          · subst h1
            rw [nlFree_cons, ih ℓ0 (by rw [hq]; exact List.mem_cons_self _ _)]
            simp [h]
          · exact ih ℓ (by rw [hq]; exact List.mem_cons_of_mem _ h1)

theorem joinNL_lines (x : List Char) : joinNL (lines x) = x := by
  induction x with
  | nil => rfl
  | cons c t ih =>
      by_cases h : c = '\n'
      · rw [lines, if_pos h]
        rcases hq : lines t with _ | ⟨ℓ, r⟩
        · exact absurd hq (lines_ne_nil t)
        · rw [hq] at ih
          rw [joinNL, h]
          simp [ih]
      · rw [lines, if_neg h]
        rcases hq : lines t with _ | ⟨ℓ, r⟩
        · exact absurd hq (lines_ne_nil t)
        · rw [hq] at ih
          cases r with
          | nil => simpa [joinNL] using congrArg (c :: ·) ih
          | cons r0 rt =>
              rw [joinNL]
              rw [joinNL] at ih
              simpa using congrArg (c :: ·) ih

theorem chunks_eq_joinNL (L : List (List Char)) (h : L ≠ []) :
    chunks L = joinNL L ++ ['\n'] := by
  induction L with
  | nil => exact absurd rfl h
  | cons ℓ tl ih =>
      cases tl with
      | nil => rfl
      | cons l2 t2 =>
          rw [chunks, ih (by simp), joinNL]
          simp

theorem chunks_append (A B : List (List Char)) :
    chunks (A ++ B) = chunks A ++ chunks B := by
  induction A with
  | nil => rfl
  | cons ℓ tl ih => simp [chunks, ih]

theorem lines_chunks (L : List (List Char)) (h : ∀ ℓ ∈ L, nlFree ℓ = true) :
    lines (chunks L) = L ++ [[]] := by
  induction L with
  | nil => rfl
  | cons ℓ tl ih =>
      rw [chunks, lines_append_nl, lines_nlFree ℓ (h ℓ (List.mem_cons_self _ _)),
        ih (fun m hm => h m (List.mem_cons_of_mem _ hm))]
      rfl

/-! ### Display unfolding lemmas -/

/-- Unfolding of `TreeCompositeNode.display` on a non-root composite. -/
theorem treeDisplay_comp_nz (a : Icons) (b : Option (List Char)) (cs : PNodeList)
    (lv : Nat) (pre : List Char) (isL : Bool) (h : lv ≠ 0) :
    treeDisplay (.comp a b cs lv) pre isL
      = pythonRstrip ((pre ++ conn isL ++ a.1 ++ keyStr b ++ ['\n'])
          ++ treeLoop cs (pre ++ (if isL then "   ".data else "│  ".data))) := by
  simp only [treeDisplay, if_neg h]

/-- Unfolding of `TreeCompositeNode.display` on a root composite. -/
theorem treeDisplay_comp_root (a : Icons) (b : Option (List Char)) (cs : PNodeList)
    (pre : List Char) (isL : Bool) :
    treeDisplay (.comp a b cs 0) pre isL = pythonRstrip (treeLoop cs pre) := by
  simp [treeDisplay]

/-! ### Claim C8 -/

mutual
theorem treeDisplayM_eq (n : PNode) (pre : List Char) (isLast : Bool) :
    treeDisplayM n pre isLast = (treeDisplay n pre isLast, n) := by
  cases n with
  | leaf ic key value lv => cases value <;> rfl
  | comp ic key cs lv =>
      have h := treeLoopM_eq cs
      simp only [treeDisplayM, treeDisplay, h]
  termination_by structural n

theorem treeLoopM_eq (l : PNodeList) : ∀ cp,
    treeLoopM l cp = (treeLoop l cp, l) := by
  intro cp
  cases l with
  | nil => rfl
  | cons c tl =>
      cases tl with
      | nil => simp only [treeLoopM, treeLoop, treeDisplayM_eq c]
      | cons d t2 =>
          simp only [treeLoopM, treeLoop, treeDisplayM_eq c, treeLoopM_eq (.cons d t2)]
  termination_by structural l
end

mutual
theorem rectDisplayM_eq (n : PNode) (pre : List Char) (isLast : Bool) :
    rectDisplayM n pre isLast = (rectDisplay n pre isLast, n) := by
  cases n with
  | leaf ic key value lv => cases value <;> rfl
  | comp ic key cs lv =>
      have h := rectLoopM_eq cs
      simp only [rectDisplayM, rectDisplay, h]
  termination_by structural n

theorem rectLoopM_eq (l : PNodeList) : ∀ cp,
    rectLoopM l cp = (rectLoop l cp, l) := by
  intro cp
  cases l with
  | nil => rfl
  | cons c tl =>
      cases tl with
      | nil => simp only [rectLoopM, rectLoop, rectDisplayM_eq c]
      | cons d t2 =>
          simp only [rectLoopM, rectLoop, rectDisplayM_eq c, rectLoopM_eq (.cons d t2)]
  termination_by structural l
end

/-- C8: rendering is read-only and repeatable, in both renderer families
and for every continuation marker / last-sibling argument pair: a display
call leaves the receiver's object state (the whole subtree) exactly as it
was, and a second call on the post-call state returns a byte-identical
result. -/
theorem c8_render_pure (n : PNode) (pre : List Char) (isLast : Bool) :
    (treeDisplayM n pre isLast).2 = n ∧
    (treeDisplayM (treeDisplayM n pre isLast).2 pre isLast).1
      = (treeDisplayM n pre isLast).1 ∧
    (rectDisplayM n pre isLast).2 = n ∧
    (rectDisplayM (rectDisplayM n pre isLast).2 pre isLast).1
      = (rectDisplayM n pre isLast).1 := by
  simp [treeDisplayM_eq, rectDisplayM_eq]

/-! ### Claim C10 -/

/-- C10: in every built tree the root has level 0 when it is a composite
(a scalar root is a leaf whose `level` attribute is never created), every
other node has level exactly 1 regardless of its nesting distance, and
both renderers read the level only through the `level == 0` test:
replacing a composite's level by its normalised form changes neither
renderer's output.  Consequently a non-root composite (level 1) still
renders its header line, starting with its inherited marker and
connector. -/
theorem c10_levels_flat (ic : Icons) (j : JValue) (k : Option (List Char)) :
    rootLevelOK (build ic j k) = true ∧
    subLevelsOne (build ic j k) = true ∧
    (∀ (a : Icons) (b : Option (List Char)) (cs : PNodeList) (lv : Nat)
        (pre : List Char) (isL : Bool),
        treeDisplay (.comp a b cs lv) pre isL
          = treeDisplay (.comp a b cs (normLevel lv)) pre isL) ∧
    (∀ (a : Icons) (b : Option (List Char)) (cs : PNodeList) (lv : Nat)
        (pre : List Char) (isL : Bool),
        rectDisplay (.comp a b cs lv) pre isL
          = rectDisplay (.comp a b cs (normLevel lv)) pre isL) ∧
    (∀ (a : Icons) (b : Option (List Char)) (cs : PNodeList)
        (pre : List Char) (isL : Bool),
        ∃ r, treeDisplay (.comp a b cs 1) pre isL = pre ++ conn isL ++ r) := by
  refine ⟨(build_levels ic j k).2, (build_levels ic j k).1, ?_, ?_, ?_⟩
  · intro a b cs lv pre isL
    by_cases h : lv = 0
    · simp [normLevel, h]
    · simp [treeDisplay, normLevel, h]
  · intro a b cs lv pre isL
    by_cases h : lv = 0
    · simp [normLevel, h]
    · simp [rectDisplay, normLevel, h]
  · intro a b cs pre isL
    rw [treeDisplay_comp_nz a b cs 1 pre isL (by omega)]
    cases isL
    · obtain ⟨r, hr⟩ := pythonRstrip_keeps (pre ++ ['├']) '─'
        (a.1 ++ keyStr b ++ ['\n'] ++ treeLoop cs (pre ++ "│  ".data)) (by decide)
      refine ⟨r, ?_⟩
      rw [show (pre ++ conn false ++ a.1 ++ keyStr b ++ ['\n'])
            ++ treeLoop cs (pre ++ (if (false : Bool) then "   ".data else "│  ".data))
          = (pre ++ ['├']) ++ '─' :: (a.1 ++ keyStr b ++ ['\n']
            ++ treeLoop cs (pre ++ "│  ".data)) from by simp [conn], hr]
      simp [conn]
    · obtain ⟨r, hr⟩ := pythonRstrip_keeps (pre ++ ['└']) '─'
        (a.1 ++ keyStr b ++ ['\n'] ++ treeLoop cs (pre ++ "   ".data)) (by decide)
      refine ⟨r, ?_⟩
      rw [show (pre ++ conn true ++ a.1 ++ keyStr b ++ ['\n'])
            ++ treeLoop cs (pre ++ (if (true : Bool) then "   ".data else "│  ".data))
          = (pre ++ ['└']) ++ '─' :: (a.1 ++ keyStr b ++ ['\n']
            ++ treeLoop cs (pre ++ "   ".data)) from by simp [conn], hr]
      simp [conn]

/-! ### Claim C1 -/

/-- C1 (counterexample): for the input `{"a": {"b": 1}}` the built tree
violates `child.level == parent.level + 1`: the inner leaf was stamped
while its parent still had level 0, so both have level 1. -/
theorem c1_mono_fails : levelsMono (build icDefault jNested none) = false := by decide

/-- C1 (amended): `add` stamps `child.level = parent.level + 1` once and
the level is never recomputed, but the builder attaches children before
the parent is itself attached, so the law holds only for the root's
direct children: the root composite has level 0, its direct children have
level `0 + 1`, and **every** strictly deeper node also has level exactly
1. -/
theorem c1_level_stamp (ic : Icons) (j : JValue) (k : Option (List Char)) :
    rootLevelOK (build ic j k) = true ∧ rootChildrenMono (build ic j k) = true ∧
    subLevelsOne (build ic j k) = true := by
  refine ⟨(build_levels ic j k).2, ?_, (build_levels ic j k).1⟩
  have h1 := (build_levels ic j k).1
  have h2 := (build_levels ic j k).2
  cases hb : build ic j k with
  | leaf a b c d => simp [rootChildrenMono]
  | comp a b cs lv =>
      rw [hb] at h1 h2
      simp [subLevelsOne] at h1
      simp [rootLevelOK] at h2
      subst h2
      simp [rootChildrenMono, firstLayer_of_kidsLevelsOne cs h1]

/-! ### Claim C2 -/

/-- C2: an unfit rectangle row (a 60-character key) makes
`RectangleLeafNode.display` return the value `None` (no error is raised,
no error value is surfaced), and the composite concatenation
`str(child.display(...))` silently turns it into the four characters
`None` inside the rendered output. -/
theorem c2_unfit_propagates :
    rectDisplay (.leaf icDefault (some longKey) (some (intStr 2)) none) [] true
      = .ok none ∧
    containsSub (outOf (rectDisplay (build icDefault jUnfit none) [] true))
      "None".data = true :=
  ⟨rfl, by decide⟩

/-! ### Claim C5 -/

/-- C5: for the empty-array input `[]`, the tree renderer returns the
empty string, but the rectangle renderer raises an `IndexError` (the
stitching pass assigns `result_list[0]` on an empty list) instead of
returning the empty string required by the spec. -/
theorem c5_empty_root (ic : Icons) :
    treeDisplay (build ic (.arr .nil) none) [] true = [] ∧
    rectDisplay (build ic (.arr .nil) none) [] true = .error () := by
  constructor
  · simp [build, buildElems, treeDisplay, treeLoop, pythonRstrip]
  · simp [build, buildElems, rectDisplay, rectLoop, stitch, setAt, pyIdx]

/-! ### Claim C6 -/

/-- C6 (counterexample): the top-level build of the scalar JSON value `5`
is a leaf, not a composite. -/
theorem c6_scalar_root_leaf : isComposite (build icDefault (.num 5) none) = false := by
  decide

/-- C6 (amended): the node returned by `build` is a composite exactly
when the value is an object or an array; a top-level scalar or null
yields a leaf. -/
theorem c6_root_kind (ic : Icons) (j : JValue) (k : Option (List Char)) :
    isComposite (build ic j k) = isContainerJ j := by
  cases j with
  | obj ms =>
      obtain ⟨cs2, h⟩ := buildMembers_shape ic ms ic k .nil 0
      simp [build, h, isComposite, isContainerJ]
  | arr es =>
      obtain ⟨cs2, h⟩ := buildElems_shape ic es ic k .nil 0 k 0
      simp [build, h, isComposite, isContainerJ]
  | str s => simp [build, isComposite, isContainerJ]
  | num n => simp [build, isComposite, isContainerJ]
  | bool b => simp [build, isComposite, isContainerJ]
  | null => simp [build, isComposite, isContainerJ]

/-! ### Claim C4 -/

/-- C4 (counterexample): with the default icon pair `(' ', ' ')` the
border scan does **not** stop at the icon glyph: the `elif == ' '` test
fires before the icon test, replaces the blank icon cell with `─`, and
the scan walks on through the label text.  On the 62-character scan input
`└─ a: 1…─┤\n` the code scan and the spec's icon-sentinel scan give
different results. -/
theorem c4_default_icon_not_sentinel :
    scanLoop icDefault rowLength (-(rowLength : Int) - 1) scanInput
      ≠ scanLoopSpec icDefault rowLength (-(rowLength : Int) - 1) scanInput := by
  decide

/-- C4 (amended): the scan replaces `│`, `├`, `└` by `┴` and blanks by
`─`, and it stops at the first icon glyph, **provided** neither icon is
itself one of the rewritten glyphs (`' '`, `│`, `├`, `└`): under that
proviso the code scan agrees with the spec's stop-at-icon-first scan at
every fuel, start index and buffer.  For the default pair `(' ', ' ')`
the blank-rewrite branch shadows the sentinel test. -/
theorem c4_scan_sentinel (ic : Icons)
    (h1 : ic.1 ≠ [' '] ∧ ic.1 ≠ ['│'] ∧ ic.1 ≠ ['├'] ∧ ic.1 ≠ ['└'])
    (h2 : ic.2 ≠ [' '] ∧ ic.2 ≠ ['│'] ∧ ic.2 ≠ ['├'] ∧ ic.2 ≠ ['└']) :
    ∀ (k : Nat) (i : Int) (l : List Char),
      scanLoop ic k i l = scanLoopSpec ic k i l := by
  intro k
  induction k with
  | zero => intro i l; rfl
  | succ k ih =>
      intro i l
      rw [scanLoop, scanLoopSpec]
      cases hg : getAt l i with
      | none => rfl
      | some c =>
          dsimp only
          by_cases hguide : c = '│' ∨ c = '├' ∨ c = '└'
          · have hic : ¬ ([c] = ic.1 ∨ [c] = ic.2) := by
              rcases hguide with h | h | h <;> subst h <;> rintro (hh | hh)
              · exact h1.2.1 hh.symm
              · exact h2.2.1 hh.symm
              · exact h1.2.2.1 hh.symm
              · exact h2.2.2.1 hh.symm
              · exact h1.2.2.2 hh.symm
              · exact h2.2.2.2 hh.symm
            rw [if_pos hguide, if_neg hic, if_pos hguide]
            cases setAt l i '┴' <;> simp [ih]
          · by_cases hsp : c = ' '
            · have hic : ¬ ([c] = ic.1 ∨ [c] = ic.2) := by
                subst hsp
                rintro (hh | hh)
                · exact h1.1 hh.symm
                · exact h2.1 hh.symm
              rw [if_neg hguide, if_pos hsp, if_neg hic, if_neg hguide, if_pos hsp]
              cases setAt l i '─' <;> simp [ih]
            · by_cases hic : [c] = ic.1 ∨ [c] = ic.2
              · rw [if_neg hguide, if_neg hsp, if_pos hic, if_pos hic]
              · rw [if_neg hguide, if_neg hsp, if_neg hic, if_neg hic,
                  if_neg hguide, if_neg hsp]
                exact ih (i + 1) l

/-- C4 (witness): the amended scan-agreement theorem applied at the
concrete icon pair `('*', '*')`. -/
theorem c4_scan_sentinel_witness :
    ((("*".data, "*".data) : Icons).1 ≠ [' '] ∧ (("*".data, "*".data) : Icons).1 ≠ ['│'] ∧
      (("*".data, "*".data) : Icons).1 ≠ ['├'] ∧ (("*".data, "*".data) : Icons).1 ≠ ['└']) ∧
    ((("*".data, "*".data) : Icons).2 ≠ [' '] ∧ (("*".data, "*".data) : Icons).2 ≠ ['│'] ∧
      (("*".data, "*".data) : Icons).2 ≠ ['├'] ∧ (("*".data, "*".data) : Icons).2 ≠ ['└']) ∧
    (∀ (k : Nat) (i : Int) (l : List Char),
      scanLoop ("*".data, "*".data) k i l = scanLoopSpec ("*".data, "*".data) k i l) :=
  ⟨by refine ⟨?_, ?_, ?_, ?_⟩ <;> decide,
   by refine ⟨?_, ?_, ?_, ?_⟩ <;> decide,
   c4_scan_sentinel ("*".data, "*".data)
     ⟨by decide, by decide, by decide, by decide⟩
     ⟨by decide, by decide, by decide, by decide⟩⟩

/-! ### Claim C9 -/

theorem jcount_pos (j : JValue) : 1 ≤ jcount j := by
  cases j <;> simp [jcount]

/-- C9: the builder is total over the JSON value model — `build` is a
total (structurally recursive) Lean function, it always returns a node,
and the returned tree has exactly one node per subvalue of the input
(each object member and array element contributes its own subtree), which
pins down that the recursion visits exactly the strictly smaller
subvalues. -/
theorem c9_build_total (ic : Icons) (j : JValue) (k : Option (List Char)) :
    pcount (build ic j k) = jcount j ∧ 1 ≤ pcount (build ic j k) := by
  have h := build_size ic j k
  exact ⟨h, h ▸ jcount_pos j⟩

/-! ### Claim C7: line-shape lemmas for the tree renderer -/

theorem nlFree_conn (b : Bool) : nlFree (conn b) = true := by cases b <;> decide

theorem mem_pythonRstrip (x : List Char) (c : Char) (hc : c ∈ pythonRstrip x) :
    c ∈ x := by
  rw [pythonRstrip] at hc
  have h1 := List.mem_reverse.mp hc
  exact List.mem_reverse.mp ((List.dropWhile_sublist _).subset h1)

theorem nlFree_rstrip (x : List Char) (h : nlFree x = true) :
    nlFree (pythonRstrip x) = true := by
  rw [nlFree, List.all_eq_true] at h ⊢
  exact fun c hc => h c (mem_pythonRstrip x c hc)

/-- Lemma: `rstrip` cannot eat into a connector: everything up to and including
the connector survives. -/
theorem rstrip_keeps_conn (pre : List Char) (b : Bool) (rest : List Char) :
    ∃ r, pythonRstrip (pre ++ conn b ++ rest) = pre ++ conn b ++ r := by
  cases b
  · obtain ⟨r, hr⟩ := pythonRstrip_keeps (pre ++ ['├']) '─' rest (by decide)
    refine ⟨r, ?_⟩
    have he : pre ++ conn false ++ rest = (pre ++ ['├']) ++ '─' :: rest := by simp [conn]
    rw [he, hr]
    simp [conn]
  · obtain ⟨r, hr⟩ := pythonRstrip_keeps (pre ++ ['└']) '─' rest (by decide)
    refine ⟨r, ?_⟩
    have he : pre ++ conn true ++ rest = (pre ++ ['└']) ++ '─' :: rest := by simp [conn]
    rw [he, hr]
    simp [conn]

theorem rstrip_conn_ne (pre : List Char) (b : Bool) (rest : List Char) :
    pythonRstrip (pre ++ conn b ++ rest) ≠ [] := by
  obtain ⟨r, hr⟩ := rstrip_keeps_conn pre b rest
  rw [hr]
  cases b <;> simp [conn]

theorem PLine_here (pre : List Char) (b : Bool) (rest : List Char) :
    PLine pre (pre ++ conn b ++ rest) := by
  cases b
  · exact ⟨[], rest, rfl, Or.inr (by simp)⟩
  · exact ⟨[], rest, rfl, Or.inl (by simp)⟩

theorem PLine_shift (pre block ℓ : List Char)
    (hb : block = "   ".data ∨ block = "│  ".data)
    (h : PLine (pre ++ block) ℓ) : PLine pre ℓ := by
  obtain ⟨g, r, hg, hor⟩ := h
  refine ⟨block ++ g, r, ?_, ?_⟩
  · rcases hb with hb | hb <;> subst hb <;> simpa [isGuide] using hg
  · rcases hor with he | he
    · left
      rw [he]
      simp
    · right
      rw [he]
      simp

/-- All four line-shape facts for a single constructed line
`pre ++ connector ++ rest`. -/
theorem treeGood_line (pre : List Char) (isLast : Bool) (rest : List Char)
    (hfree : nlFree (pre ++ conn isLast ++ rest) = true) :
    GoodLines pre (pre ++ conn isLast ++ rest) ∧
    GoodLines pre (pythonRstrip (pre ++ conn isLast ++ rest)) ∧
    pythonRstrip (pre ++ conn isLast ++ rest) ≠ [] ∧
    (∃ r tl, lines (pre ++ conn isLast ++ rest) = (pre ++ conn isLast ++ r) :: tl) := by
  obtain ⟨r, hr⟩ := rstrip_keeps_conn pre isLast rest
  refine ⟨?_, ?_, rstrip_conn_ne _ _ _, ⟨rest, [], by rw [lines_nlFree _ hfree]⟩⟩
  · intro ℓ hl
    rw [lines_nlFree _ hfree] at hl
    rw [List.mem_singleton.mp hl]
    exact PLine_here pre isLast rest
  · intro ℓ hl
    have hfree2 : nlFree (pre ++ conn isLast ++ r) = true := by
      have h0 := nlFree_rstrip _ hfree
      rwa [hr] at h0
    rw [hr, lines_nlFree _ hfree2] at hl
    rw [List.mem_singleton.mp hl]
    exact PLine_here pre isLast r

mutual
/-- Line shape of `treeDisplay` below the root: with nonzero levels and
no embedded line breaks, every output line is marker-guides-connector,
the raw and rstripped outputs both qualify, the rstripped output is
nonempty, and the head line carries this node's own connector. -/
theorem treeGood (n : PNode) (pre : List Char) (isLast : Bool)
    (hz : allNZ n = true) (hn : noNLn n = true) (hp : nlFree pre = true) :
    GoodLines pre (treeDisplay n pre isLast) ∧
    GoodLines pre (pythonRstrip (treeDisplay n pre isLast)) ∧
    pythonRstrip (treeDisplay n pre isLast) ≠ [] ∧
    (∃ r tl, lines (treeDisplay n pre isLast) = (pre ++ conn isLast ++ r) :: tl) := by
  cases n with
  | leaf ic key value lv =>
      cases value with
      | none =>
          simp only [noNLn, Bool.and_eq_true] at hn
          have hout : treeDisplay (.leaf ic key none lv) pre isLast
              = pre ++ conn isLast ++ (ic.2 ++ keyStr key) := by
            simp [treeDisplay]
          rw [hout]
          exact treeGood_line pre isLast _ (by
            simp [nlFree_append, hp, nlFree_conn, hn.1.1, hn.1.2])
      | some v =>
          simp only [noNLn, Bool.and_eq_true] at hn
          have hout : treeDisplay (.leaf ic key (some v) lv) pre isLast
              = pre ++ conn isLast ++ (ic.2 ++ keyStr key ++ ": ".data ++ v) := by
            simp [treeDisplay]
          rw [hout]
          exact treeGood_line pre isLast _ (by
            simp [nlFree_append, nlFree_cons, hp, nlFree_conn, hn.1.1, hn.1.2, hn.2])
  | comp ic key cs lv =>
      simp only [allNZ, Bool.and_eq_true, bne_iff_ne, ne_eq] at hz
      simp only [noNLn, Bool.and_eq_true] at hn
      rw [treeDisplay_comp_nz ic key cs lv pre isLast hz.1]
      have hblock2 : (if isLast then "   ".data else "│  ".data) = "   ".data ∨
          (if isLast then "   ".data else "│  ".data) = "│  ".data := by
        cases isLast <;> simp
      have hcpf : nlFree (pre ++ (if isLast then "   ".data else "│  ".data)) = true := by
        rcases hblock2 with hb | hb <;> rw [hb, nlFree_append, hp] <;> rfl
      have hfree : nlFree (pre ++ conn isLast ++ (ic.1 ++ keyStr key)) = true := by
        simp [nlFree_append, hp, nlFree_conn, hn.1.1, hn.1.2]
      cases cs with
      | nil =>
          have hsh : (pre ++ conn isLast ++ ic.1 ++ keyStr key ++ ['\n'])
              ++ treeLoop .nil (pre ++ (if isLast then "   ".data else "│  ".data))
              = (pre ++ conn isLast ++ (ic.1 ++ keyStr key)) ++ ['\n'] := by
            simp [treeLoop]
          rw [hsh, pythonRstrip_append_nl]
          obtain ⟨ga, gb, gc, gd⟩ := treeGood_line pre isLast (ic.1 ++ keyStr key) hfree
          obtain ⟨r, hr⟩ := rstrip_keeps_conn pre isLast (ic.1 ++ keyStr key)
          refine ⟨gb, ?_, ?_, ?_⟩
          · rw [pythonRstrip_idem]
            exact gb
          · rw [pythonRstrip_idem]
            exact gc
          · rw [hr]
            have hfree2 : nlFree (pre ++ conn isLast ++ r) = true := by
              have h0 := nlFree_rstrip _ hfree
              rwa [hr] at h0
            exact ⟨r, [], by rw [lines_nlFree _ hfree2]⟩
      | cons c0 cst =>
          have hzl : allNZl (.cons c0 cst) = true := hz.2
          have hnl : noNLl (.cons c0 cst) = true := hn.2
          have hloop := treeGoodL (.cons c0 cst)
            (pre ++ (if isLast then "   ".data else "│  ".data)) hzl hnl hcpf
          obtain ⟨hne, hG⟩ := hloop.2 (fun h => PNodeList.noConfusion h)
          have hsh : (pre ++ conn isLast ++ ic.1 ++ keyStr key ++ ['\n'])
              ++ treeLoop (.cons c0 cst) (pre ++ (if isLast then "   ".data else "│  ".data))
              = ((pre ++ conn isLast ++ (ic.1 ++ keyStr key)) ++ ['\n'])
                ++ treeLoop (.cons c0 cst)
                  (pre ++ (if isLast then "   ".data else "│  ".data)) := by
            simp
          rw [hsh, pythonRstrip_append _ _ hne]
          have hsh2 : ∀ z : List Char,
              ((pre ++ conn isLast ++ (ic.1 ++ keyStr key)) ++ ['\n']) ++ z
              = (pre ++ conn isLast ++ (ic.1 ++ keyStr key)) ++ '\n' :: z := by
            intro z
            simp
          have hlines : ∀ z : List Char,
              lines (((pre ++ conn isLast ++ (ic.1 ++ keyStr key)) ++ ['\n']) ++ z)
              = (pre ++ conn isLast ++ (ic.1 ++ keyStr key)) :: lines z := by
            intro z
            rw [hsh2, lines_append_nl, lines_nlFree _ hfree]
            rfl
          refine ⟨?_, ?_, ?_, ?_⟩
          · intro ℓ hl
            rw [hlines] at hl
            rcases List.mem_cons.mp hl with rfl | hl2
            · exact PLine_here pre isLast _
            · exact PLine_shift pre _ ℓ hblock2 (hG ℓ hl2)
          · rw [pythonRstrip_append _ _ (by rw [pythonRstrip_idem]; exact hne),
              pythonRstrip_idem]
            intro ℓ hl
            rw [hlines] at hl
            rcases List.mem_cons.mp hl with rfl | hl2
            · exact PLine_here pre isLast _
            · exact PLine_shift pre _ ℓ hblock2 (hG ℓ hl2)
          · rw [pythonRstrip_append _ _ (by rw [pythonRstrip_idem]; exact hne)]
            simp
          · exact ⟨ic.1 ++ keyStr key, _, hlines _⟩
  termination_by structural n

/-- Line shape of the children loop: every line is empty or a child
line, and once there is at least one child the rstripped loop output is
nonempty and consists of child lines only. -/
theorem treeGoodL (l : PNodeList) (cp : List Char)
    (hz : allNZl l = true) (hn : noNLl l = true) (hp : nlFree cp = true) :
    (∀ ℓ ∈ lines (treeLoop l cp), ℓ = [] ∨ PLine cp ℓ) ∧
    (l ≠ .nil →
      pythonRstrip (treeLoop l cp) ≠ [] ∧
      GoodLines cp (pythonRstrip (treeLoop l cp))) := by
  cases l with
  | nil =>
      constructor
      · intro ℓ hl
        rw [treeLoop] at hl
        exact Or.inl (List.mem_singleton.mp hl)
      · intro h
        exact absurd rfl h
  | cons c tl =>
      simp only [allNZl, Bool.and_eq_true] at hz
      simp only [noNLl, Bool.and_eq_true] at hn
      have hT0 := treeGood c cp
      cases tl with
      | nil =>
          have hT := treeGood c cp true hz.1 hn.1 hp
          have hsh : treeLoop (.cons c .nil) cp = treeDisplay c cp true ++ '\n' :: [] := by
            rw [treeLoop]
          constructor
          · intro ℓ hl
            rw [hsh, lines_append_nl] at hl
            rcases List.mem_append.mp hl with hl2 | hl2
            · exact Or.inr (hT.1 ℓ hl2)
            · exact Or.inl (List.mem_singleton.mp hl2)
          · intro _
            rw [hsh, show treeDisplay c cp true ++ '\n' :: []
                = treeDisplay c cp true ++ ['\n'] from rfl, pythonRstrip_append_nl]
            exact ⟨hT.2.2.1, hT.2.1⟩
      | cons d t2 =>
          have hT := treeGood c cp false hz.1 hn.1 hp
          have hIH := treeGoodL (.cons d t2) cp hz.2 hn.2 hp
          obtain ⟨hne, hG⟩ := hIH.2 (fun h => PNodeList.noConfusion h)
          have hsh : treeLoop (.cons c (.cons d t2)) cp
              = treeDisplay c cp false ++ '\n' :: treeLoop (.cons d t2) cp := by
            rw [treeLoop]
            simp
          constructor
          · intro ℓ hl
            rw [hsh, lines_append_nl] at hl
            rcases List.mem_append.mp hl with hl2 | hl2
            · exact Or.inr (hT.1 ℓ hl2)
            · exact hIH.1 ℓ hl2
          · intro _
            have hsh2 : treeDisplay c cp false ++ '\n' :: treeLoop (.cons d t2) cp
                = (treeDisplay c cp false ++ ['\n']) ++ treeLoop (.cons d t2) cp := by
              simp
            rw [hsh, hsh2, pythonRstrip_append _ _ hne]
            constructor
            · simp
            · intro ℓ hl
              rw [show (treeDisplay c cp false ++ ['\n']) ++ pythonRstrip (treeLoop (.cons d t2) cp)
                  = treeDisplay c cp false ++ '\n' :: pythonRstrip (treeLoop (.cons d t2) cp)
                  from by simp, lines_append_nl] at hl
              rcases List.mem_append.mp hl with hl2 | hl2
              · exact hT.1 ℓ hl2
              · exact hG ℓ hl2
  termination_by structural l
end

/-- The children loop renders child `i` with `is_last` true exactly when
`i` is the final index (`i == len(children) - 1`). -/
theorem treeLoop_nth (cs : PNodeList) : ∀ (cp : List Char) (i : Nat) (c : PNode),
    nthChild cs i = some c →
    ∃ a b isl, treeLoop cs cp = a ++ treeDisplay c cp isl ++ b ∧
      (isl = true ↔ i + 1 = plen cs) := by
  cases cs with
  | nil =>
      intro cp i c h
      exact absurd h (by rw [nthChild]; exact Option.noConfusion)
  | cons c0 tl =>
      cases tl with
      | nil =>
          intro cp i c h
          cases i with
          | zero =>
              rw [nthChild] at h
              obtain rfl := Option.some.inj h
              refine ⟨[], ['\n'], true, ?_, ?_⟩
              · rw [treeLoop]
                simp
              · simp [plen]
          | succ j =>
              rw [nthChild, nthChild] at h
              exact absurd h Option.noConfusion
      | cons d t2 =>
          intro cp i c h
          cases i with
          | zero =>
              rw [nthChild] at h
              obtain rfl := Option.some.inj h
              refine ⟨[], '\n' :: treeLoop (.cons d t2) cp, false, ?_, ?_⟩
              · rw [treeLoop]
                simp
              · simp [plen]
          | succ j =>
              rw [nthChild] at h
              obtain ⟨a, b, isl, he, hiff⟩ := treeLoop_nth (.cons d t2) cp j c h
              refine ⟨treeDisplay c0 cp false ++ '\n' :: a, b, isl, ?_, ?_⟩
              · rw [treeLoop, he]
                simp
              · rw [hiff]
                simp [plen]
                omega
  termination_by structural cs

/-- C7 (counterexample): for the built tree of `{"a\nb": 1}` (an object
key containing a line break) the rendered output has the line `b: 1`,
which does not begin with any guide-extended connector. -/
theorem c7_newline_key :
    ¬ (∀ ℓ ∈ lines (treeDisplay (build icDefault jNLKey none) [] true),
        ℓ = [] ∨ PLine [] ℓ) := by
  intro h
  rcases h "b: 1".data (by decide) with h0 | ⟨g, r, hg, he | he⟩
  · exact absurd h0 (by decide)
  · have hm : '└' ∈ "b: 1".data := by
      rw [he]
      simp [conn]
    exact absurd hm (by decide)
  · have hm : '├' ∈ "b: 1".data := by
      rw [he]
      simp [conn]
    exact absurd hm (by decide)

/-- C7 (amended): provided no key, string value or icon contains a line
break, every nonempty line of the tree render of a built tree is the
inherited marker, a guide extension, then exactly one of `└─` / `├─`;
moreover the head line of any non-root node rendered as `(pre, isLast)`
carries the connector chosen by `isLast` (`└─` iff last), and the
children loop passes `is_last` true to child `i` exactly when `i` is the
final index — so the last sibling always gets `└─` and earlier siblings
`├─`. -/
theorem c7_tree_connectors (j : JValue) (ic : Icons)
    (hj : noNLj j = true) (h1 : nlFree ic.1 = true) (h2 : nlFree ic.2 = true) :
    (∀ ℓ ∈ lines (treeDisplay (build ic j none) [] true), ℓ = [] ∨ PLine [] ℓ) ∧
    (∀ (n : PNode) (pre : List Char) (isLast : Bool),
        allNZ n = true → noNLn n = true → nlFree pre = true →
        ∃ r tl, lines (treeDisplay n pre isLast) = (pre ++ conn isLast ++ r) :: tl) ∧
    (∀ (cs : PNodeList) (cp : List Char) (i : Nat) (c : PNode),
        nthChild cs i = some c →
        ∃ a b isl, treeLoop cs cp = a ++ treeDisplay c cp isl ++ b ∧
          (isl = true ↔ i + 1 = plen cs)) := by
  refine ⟨?_, fun n pre isLast za nb pf => (treeGood n pre isLast za nb pf).2.2.2,
    fun cs => treeLoop_nth cs⟩
  have hnn : noNLn (build ic j none) = true :=
    noNLn_build ic j none hj h1 h2 (by rfl)
  have hlev := build_levels ic j none
  cases hb : build ic j none with
  | leaf a k v lv =>
      rw [hb] at hnn
      have hT := treeGood (.leaf a k v lv) [] true (by rw [allNZ]) hnn rfl
      intro ℓ hl
      exact Or.inr (hT.1 ℓ hl)
  | comp a k cs lv =>
      rw [hb] at hnn
      obtain ⟨hsub, hroot⟩ := hlev
      rw [hb] at hsub hroot
      simp only [rootLevelOK, beq_iff_eq] at hroot
      subst hroot
      simp only [subLevelsOne] at hsub
      simp only [noNLn, Bool.and_eq_true] at hnn
      rw [treeDisplay_comp_root]
      cases cs with
      | nil =>
          intro ℓ hl
          rw [treeLoop] at hl
          exact Or.inl (List.mem_singleton.mp hl)
      | cons c0 cst =>
          have hgl := treeGoodL (.cons c0 cst) []
            (allNZl_of_kidsLevelsOne _ hsub) hnn.2 rfl
          obtain ⟨hne, hG⟩ := hgl.2 (fun h => PNodeList.noConfusion h)
          intro ℓ hl
          exact Or.inr (hG ℓ hl)

/-- C7 (witness): the amended theorem applied to `{"a": 1, "b": 2}` with
the default icons. -/
theorem c7_tree_connectors_witness :
    noNLj jTwo = true ∧ nlFree icDefault.1 = true ∧ nlFree icDefault.2 = true ∧
    (∀ ℓ ∈ lines (treeDisplay (build icDefault jTwo none) [] true),
      ℓ = [] ∨ PLine [] ℓ) :=
  ⟨by decide, by decide, by decide,
    (c7_tree_connectors jTwo icDefault (by decide) (by decide) (by decide)).1⟩

/-! ### Claim C3: base lemmas for the rectangle renderer -/

theorem nlFree_fill (n : Nat) : nlFree (fill n) = true := by
  rw [nlFree, List.all_eq_true]
  intro c hc
  rw [fill] at hc
  rw [List.eq_of_mem_replicate hc]
  decide

theorem rstrip_noop (x : List Char) (c : Char) (hc : x.getLast? = some c)
    (hw : pyWS c = false) : pythonRstrip x = x := by
  have h1 : x.reverse.head? = some c := by rw [List.head?_reverse, hc]
  cases hx : x.reverse with
  | nil =>
      rw [hx] at h1
      exact Option.noConfusion h1
  | cons c0 t =>
      rw [hx] at h1
      have hc0 : c0 = c := Option.some.inj h1
      rw [pythonRstrip, hx,
        List.dropWhile_cons_of_neg (by rw [hc0, hw]; exact Bool.false_ne_true),
        ← hx, List.reverse_reverse]

theorem lines_joinNL (L : List (List Char)) (hL : L ≠ [])
    (h : ∀ ℓ ∈ L, nlFree ℓ = true) : lines (joinNL L) = L := by
  induction L with
  | nil => exact absurd rfl hL
  | cons ℓ tl ih =>
      cases tl with
      | nil =>
          rw [joinNL, lines_nlFree ℓ (h ℓ (List.mem_cons_self _ _))]
      | cons l2 t2 =>
          rw [joinNL, lines_append_nl, lines_nlFree ℓ (h ℓ (List.mem_cons_self _ _)),
            ih (by simp) (fun m hm => h m (List.mem_cons_of_mem _ hm))]
          rfl

theorem joinNL_getLast? (L : List (List Char)) (x : List Char) (c : Char)
    (hx : L.getLast? = some x) (hc : x.getLast? = some c) :
    (joinNL L).getLast? = some c := by
  induction L with
  | nil => exact Option.noConfusion hx
  | cons ℓ tl ih =>
      cases tl with
      | nil =>
          have hxe : ℓ = x := Option.some.inj (by simpa using hx)
          rw [joinNL, hxe]
          exact hc
      | cons l2 t2 =>
          have hx2 : (l2 :: t2).getLast? = some x := by
            simpa [List.getLast?_cons_cons] using hx
          have hrec := ih hx2
          rw [joinNL, List.getLast?_append]
          have hcons : ('\n' :: joinNL (l2 :: t2)).getLast? = some c := by
            cases hj : joinNL (l2 :: t2) with
            | nil =>
                rw [hj] at hrec
                exact Option.noConfusion hrec
            | cons a b =>
                rw [hj] at hrec
                rw [List.getLast?_cons_cons]
                exact hrec
          rw [hcons]
          rfl

theorem pyIdx_eq_some (n : Nat) (i : Int) (p : Nat) (hp : p < n)
    (hi : i = (p : Int) ∨ i = (p : Int) - n) : pyIdx n i = some p := by
  simp only [pyIdx]
  rcases hi with rfl | rfl
  · rw [if_neg (by omega : ¬ ((p : Int) < 0)), dif_pos (by omega)]
    congr 1
  · rw [if_pos (by omega : (p : Int) - n < 0), dif_pos (by omega)]
    congr 1
    omega

theorem getAt_eq (l : List Char) (i : Int) (p : Nat) (hp : p < l.length)
    (hi : i = (p : Int) ∨ i = (p : Int) - l.length) : getAt l i = l[p]? := by
  rw [getAt, pyIdx_eq_some l.length i p hp hi]

theorem setAt_eq (l : List Char) (i : Int) (c : Char) (p : Nat) (hp : p < l.length)
    (hi : i = (p : Int) ∨ i = (p : Int) - l.length) :
    setAt l i c = some (l.set p c) := by
  rw [setAt, pyIdx_eq_some l.length i p hp hi]

theorem nlFree_getElem? (ℓ : List Char) (h : nlFree ℓ = true) (j : Nat) :
    ℓ[j]? ≠ some '\n' := by
  intro he
  have hm : '\n' ∈ ℓ := List.mem_iff_getElem?.mpr ⟨j, he⟩
  rw [nlFree, List.all_eq_true] at h
  have := h '\n' hm
  simp at this

theorem nlFree_of_getElem? (x : List Char)
    (h : ∀ j, j < x.length → x[j]? ≠ some '\n') : nlFree x = true := by
  rw [nlFree, List.all_eq_true]
  intro c hc
  obtain ⟨j, hj⟩ := List.mem_iff_getElem?.mp hc
  have hjlen : j < x.length := by
    by_contra hcon
    rw [List.getElem?_eq_none (by omega)] at hj
    exact Option.noConfusion hj
  by_cases hcn : c = '\n'
  · subst hcn
    exact absurd hj (h j hjlen)
  · simp [hcn]

theorem chunks_length (L : List (List Char)) (h : ∀ ℓ ∈ L, ℓ.length = 61) :
    (chunks L).length = 62 * L.length := by
  induction L with
  | nil => rfl
  | cons ℓ tl ih =>
      have h1 := h ℓ (List.mem_cons_self _ _)
      have h2 := ih (fun m hm => h m (List.mem_cons_of_mem _ hm))
      rw [chunks]
      simp [h1, h2]
      ring

theorem LinedP_set (m : Nat) (r : List Char) (h : LinedP m r) (p : Nat)
    (hp : p < r.length) (hmod : p % 62 ≠ 61) (c : Char) (hc : c ≠ '\n') :
    LinedP m (r.set p c) := by
  obtain ⟨hlen, hidx⟩ := h
  refine ⟨by simp [hlen], ?_⟩
  intro j hj
  rw [List.length_set] at hj
  by_cases hpj : p = j
  · subst hpj
    rw [List.getElem?_set_self hp]
    constructor
    · intro he
      exact absurd (Option.some.inj he) hc
    · intro hmm
      exact absurd hmm hmod
  · rw [List.getElem?_set_ne hpj]
    exact hidx j hj

theorem LinedP_chunks (L : List (List Char))
    (h : ∀ ℓ ∈ L, ℓ.length = 61 ∧ nlFree ℓ = true) :
    LinedP L.length (chunks L) := by
  induction L with
  | nil => exact ⟨rfl, fun j hj => absurd hj (by simp [chunks])⟩
  | cons ℓ tl ih =>
      obtain ⟨hlen, hfree⟩ := h ℓ (List.mem_cons_self _ _)
      obtain ⟨ihlen, ihidx⟩ := ih (fun m hm => h m (List.mem_cons_of_mem _ hm))
      have hclen : (chunks (ℓ :: tl)).length = 62 * (ℓ :: tl).length := by
        rw [chunks]
        simp [hlen, ihlen]
        ring
      refine ⟨hclen, ?_⟩
      intro j hj
      rw [hclen] at hj
      rw [chunks]
      by_cases h1 : j < 61
      · rw [List.getElem?_append_left (by omega)]
        constructor
        · intro he
          exact absurd he (nlFree_getElem? ℓ hfree j)
        · intro hmm
          rw [Nat.mod_eq_of_lt (by omega)] at hmm
          omega
      · by_cases h2 : j = 61
        · subst h2
          rw [List.getElem?_append_right (by omega),
            show 61 - ℓ.length = 0 from by omega, List.getElem?_cons_zero]
          simp
        · have h3 : 62 ≤ j := by omega
          rw [List.getElem?_append_right (by omega),
            show j - ℓ.length = (j - 62) + 1 from by omega, List.getElem?_cons_succ]
          have hb : j - 62 < (chunks tl).length := by
            rw [ihlen]
            simp only [List.length_cons] at hj
            omega
          have := ihidx (j - 62) hb
          rw [this]
          omega

/-- The bottom-border scan succeeds on a lined buffer as long as it stays
inside the last row, keeps the row structure, and only ever rewrites
cells to `┴` or `─`. -/
theorem scanLoop_lined (ic : Icons) (m : Nat) (k : Nat) :
    ∀ (p : Nat) (r : List Char), LinedP m r →
    p + k ≤ 62 * m - 1 → 1 ≤ m →
    (∀ t, t < k → (p + t) % 62 ≠ 61) →
    ∃ r2, scanLoop ic k ((p : Int) - 62 * m) r = some r2 ∧ LinedP m r2 ∧
      (∀ j : Nat, r2[j]? = r[j]? ∨ r2[j]? = some '┴' ∨ r2[j]? = some '─') := by
  induction k with
  | zero =>
      intro p r hr _ _ _
      exact ⟨r, rfl, hr, fun j => Or.inl rfl⟩
  | succ k ih =>
      intro p r hr hbound hm hmod
      have hplen : p < r.length := by
        rw [hr.1]
        omega
      have hcast : ((p : Int) - 62 * m) = (p : Int) - r.length := by
        rw [hr.1]
        push_cast
        ring
      rw [scanLoop, getAt_eq r ((p : Int) - 62 * m) p hplen (Or.inr hcast)]
      rcases hq : r[p]? with _ | c
      · rw [List.getElem?_eq_none_iff] at hq
        omega
      · dsimp only
        have hset : ∀ ch, setAt r ((p : Int) - 62 * m) ch = some (r.set p ch) :=
          fun ch => setAt_eq r _ ch p hplen (Or.inr hcast)
        have hmod0 : p % 62 ≠ 61 := by
          have := hmod 0 (by omega)
          omega
        have hi1 : ((p : Int) - 62 * m) + 1 = (((p + 1 : Nat) : Int)) - 62 * m := by
          push_cast
          ring
        have hcompose : ∀ (ch : Char) (r2 : List Char),
            (∀ j : Nat, r2[j]? = (r.set p ch)[j]? ∨ r2[j]? = some '┴' ∨ r2[j]? = some '─') →
            (ch = '┴' ∨ ch = '─') →
            (∀ j : Nat, r2[j]? = r[j]? ∨ r2[j]? = some '┴' ∨ r2[j]? = some '─') := by
          intro ch r2 hpt hch j
          rcases hpt j with hj | hj | hj
          · by_cases hpj : p = j
            · subst hpj
              rw [List.getElem?_set_self hplen] at hj
              rcases hch with rfl | rfl
              · exact Or.inr (Or.inl hj)
              · exact Or.inr (Or.inr hj)
            · rw [List.getElem?_set_ne hpj] at hj
              exact Or.inl hj
          · exact Or.inr (Or.inl hj)
          · exact Or.inr (Or.inr hj)
        by_cases hg : c = '│' ∨ c = '├' ∨ c = '└'
        · rw [if_pos hg, hset '┴']
          dsimp only
          have hr2 := LinedP_set m r hr p hplen hmod0 '┴' (by decide)
          obtain ⟨r2, hs, hL2, hptw⟩ := ih (p + 1) (r.set p '┴') hr2
            (by omega) hm
            (fun t ht => by
              have := hmod (t + 1) (by omega)
              omega)
          rw [hi1]
          exact ⟨r2, hs, hL2, hcompose '┴' r2 hptw (Or.inl rfl)⟩
        · rw [if_neg hg]
          by_cases hsp : c = ' '
          · rw [if_pos hsp, hset '─']
            dsimp only
            have hr2 := LinedP_set m r hr p hplen hmod0 '─' (by decide)
            obtain ⟨r2, hs, hL2, hptw⟩ := ih (p + 1) (r.set p '─') hr2
              (by omega) hm
              (fun t ht => by
                have := hmod (t + 1) (by omega)
                omega)
            rw [hi1]
            exact ⟨r2, hs, hL2, hcompose '─' r2 hptw (Or.inr rfl)⟩
          · rw [if_neg hsp]
            by_cases hic : [c] = ic.1 ∨ [c] = ic.2
            · rw [if_pos hic]
              exact ⟨r, rfl, hr, fun j => Or.inl rfl⟩
            · rw [if_neg hic, hi1]
              exact ih (p + 1) r hr (by omega) hm
                (fun t ht => by
                  have := hmod (t + 1) (by omega)
                  omega)

theorem rectLine_parts (ℓ : List Char) (h : rectLine ℓ = true) :
    ℓ.length = 61 ∧ nlFree ℓ = true ∧ ℓ.getLast? = some '┤' := by
  simp only [rectLine, rowLength, Bool.and_eq_true, beq_iff_eq] at h
  exact ⟨h.1.1, h.1.2, h.2⟩

/-- The whole border-stitching pass succeeds on a nonempty block of
well-formed rows, keeps the row structure, and leaves a non-whitespace
character in the cell just before the final line break. -/
theorem stitch_lined (ic : Icons) (L : List (List Char)) (hL : L ≠ [])
    (hP : ∀ ℓ ∈ L, rectLine ℓ = true) :
    ∃ r2, stitch ic (chunks L) = some r2 ∧ LinedP L.length r2 ∧
      ∃ c, r2[62 * L.length - 2]? = some c ∧ pyWS c = false := by
  have hm : 1 ≤ L.length := List.length_pos.mpr hL
  have hP61 : ∀ ℓ ∈ L, ℓ.length = 61 ∧ nlFree ℓ = true :=
    fun ℓ hℓ => ⟨(rectLine_parts ℓ (hP ℓ hℓ)).1, (rectLine_parts ℓ (hP ℓ hℓ)).2.1⟩
  have h0 : LinedP L.length (chunks L) := LinedP_chunks L hP61
  have hlen0 : (chunks L).length = 62 * L.length := h0.1
  rw [stitch]
  rw [setAt_eq (chunks L) 0 '┌' 0 (by omega) (Or.inl (by norm_num))]
  simp only [Option.bind_eq_bind, Option.some_bind]
  have hL1 : LinedP L.length ((chunks L).set 0 '┌') :=
    LinedP_set _ _ h0 0 (by omega) (by norm_num) _ (by decide)
  have hlen1 : ((chunks L).set 0 '┌').length = 62 * L.length := hL1.1
  rw [setAt_eq _ (rowLength : Int) '┐' rowLength
    (by rw [hlen1]; simp only [rowLength]; omega) (Or.inl rfl)]
  simp only [Option.bind_eq_bind, Option.some_bind]
  have hL2 : LinedP L.length (((chunks L).set 0 '┌').set rowLength '┐') :=
    LinedP_set _ _ hL1 rowLength (by rw [hlen1]; simp only [rowLength]; omega)
      (by decide) _ (by decide)
  have hlen2 := hL2.1
  rw [setAt_eq _ (-2) '┘' (62 * L.length - 2) (by omega)
    (Or.inr (by rw [hlen2]; omega))]
  simp only [Option.bind_eq_bind, Option.some_bind]
  have hL3 : LinedP L.length
      ((((chunks L).set 0 '┌').set rowLength '┐').set (62 * L.length - 2) '┘') :=
    LinedP_set _ _ hL2 _ (by omega) (by omega) _ (by decide)
  have hlen3 := hL3.1
  rw [setAt_eq _ (-(rowLength : Int) - 2) '└' (62 * L.length - 62)
    (by omega) (Or.inr (by rw [hlen3]; simp only [rowLength]; omega))]
  simp only [Option.bind_eq_bind, Option.some_bind]
  have hL4 : LinedP L.length
      (((((chunks L).set 0 '┌').set rowLength '┐').set (62 * L.length - 2) '┘').set
        (62 * L.length - 62) '└') :=
    LinedP_set _ _ hL3 _ (by omega) (by omega) _ (by decide)
  rw [show (-(rowLength : Int) - 1) = (((62 * L.length - 61 : Nat) : Int)) - 62 * L.length
    from by simp only [rowLength]; omega]
  obtain ⟨r5, hs, hL5, hpt⟩ := scanLoop_lined ic L.length rowLength
    (62 * L.length - 61) _ hL4
    (by simp only [rowLength]; omega) hm
    (fun t ht => by
      simp only [rowLength] at ht
      omega)
  rw [hs]
  refine ⟨r5, rfl, hL5, ?_⟩
  have hq3 : ((((chunks L).set 0 '┌').set rowLength '┐').set
      (62 * L.length - 2) '┘')[62 * L.length - 2]? = some '┘' :=
    List.getElem?_set_self (by omega)
  have hq4 : (((((chunks L).set 0 '┌').set rowLength '┐').set
      (62 * L.length - 2) '┘').set (62 * L.length - 62) '└')[62 * L.length - 2]?
      = some '┘' := by
    rw [List.getElem?_set_ne (by omega), hq3]
  rcases hpt (62 * L.length - 2) with hj | hj | hj
  · exact ⟨'┘', by rw [hj, hq4], by decide⟩
  · exact ⟨'┴', hj, by decide⟩
  · exact ⟨'─', hj, by decide⟩

theorem LinedP_decomp (m : Nat) (r : List Char) (h : LinedP (m + 1) r) :
    ∃ A B, r = A ++ '\n' :: B ∧ A.length = 61 ∧ nlFree A = true ∧ LinedP m B := by
  obtain ⟨hlen, hidx⟩ := h
  have h61len : 61 < r.length := by omega
  have h61 : r[61]? = some '\n' := (hidx 61 h61len).mpr (by norm_num)
  refine ⟨r.take 61, r.drop 62, ?_, ?_, ?_, ?_, ?_⟩
  · have h1 : r.take 61 ++ r.drop 61 = r := List.take_append_drop 61 r
    have h2 : r.drop 61 = r[61] :: r.drop 62 := List.drop_eq_getElem_cons h61len
    have h3 : r[61] = '\n' := by
      have := List.getElem?_eq_getElem h61len
      rw [this] at h61
      exact Option.some.inj h61
    conv_lhs => rw [← h1]
    rw [h2, h3]
  · rw [List.length_take]
    omega
  · apply nlFree_of_getElem?
    intro j hj
    rw [List.length_take] at hj
    have hjlt : j < 61 := by omega
    rw [List.getElem?_take_of_lt hjlt]
    intro he
    have := (hidx j (by omega)).mp he
    rw [Nat.mod_eq_of_lt (by omega)] at this
    omega
  · rw [List.length_drop]
    omega
  · intro j hj
    rw [List.length_drop] at hj
    rw [List.getElem?_drop]
    have := hidx (62 + j) (by omega)
    rw [this]
    omega

theorem lines_dropLast_of_LinedP (m : Nat) : ∀ (r : List Char), LinedP m r → 1 ≤ m →
    ∀ ℓ ∈ lines r.dropLast, ℓ.length = 61 := by
  induction m with
  | zero => omega
  | succ m ih =>
      intro r hr _
      obtain ⟨A, B, rfl, hA61, hAfree, hB⟩ := LinedP_decomp m r hr
      cases hBe : B with
      | nil =>
          subst hBe
          rw [show (A ++ '\n' :: ([] : List Char)) = A ++ ['\n'] from rfl,
            List.dropLast_concat, lines_nlFree A hAfree]
          intro ℓ hl
          rw [List.mem_singleton.mp hl]
          exact hA61
      | cons b0 bt =>
          subst hBe
          have hmge : 1 ≤ m := by
            have := hB.1
            simp only [List.length_cons] at this
            omega
          have hdl : (A ++ '\n' :: b0 :: bt).dropLast
              = A ++ '\n' :: (b0 :: bt).dropLast := by
            rw [List.dropLast_append_cons]
            rfl
          rw [hdl, lines_append_nl, lines_nlFree A hAfree]
          intro ℓ hl
          rcases List.mem_append.mp hl with hl2 | hl2
          · rw [List.mem_singleton.mp hl2]
            exact hA61
          · exact ih (b0 :: bt) hB hmge ℓ hl2

/-- Padding an in-range row produces a well-formed rectangle line. -/
theorem rectLine_pad (row : List Char) (hlt : row.length < rowLength)
    (hfree : nlFree row = true) :
    rectLine (row ++ fill (rowLength - row.length - 1) ++ "─┤".data) = true := by
  have hlen : (row ++ fill (rowLength - row.length - 1) ++ "─┤".data).length
      = rowLength + 1 := by
    simp only [rowLength] at hlt ⊢
    simp [fill]
    omega
  have hfree2 : nlFree (row ++ fill (rowLength - row.length - 1) ++ "─┤".data)
      = true := by
    rw [nlFree_append, nlFree_append, hfree, nlFree_fill]
    rfl
  have hlast : (row ++ fill (rowLength - row.length - 1) ++ "─┤".data).getLast?
      = some '┤' := by
    rw [show row ++ fill (rowLength - row.length - 1) ++ "─┤".data
        = (row ++ fill (rowLength - row.length - 1) ++ ['─']) ++ ['┤'] from by simp,
      List.getLast?_concat]
  rw [rectLine, hlen, hfree2, hlast]
  rfl

theorem getLast?_cons_exists (a : List Char) (l : List (List Char)) :
    ∃ x, (a :: l).getLast? = some x ∧ x ∈ a :: l := by
  induction l generalizing a with
  | nil => exact ⟨a, rfl, List.mem_cons_self _ _⟩
  | cons b t ih =>
      obtain ⟨x, hx, hmem⟩ := ih b
      exact ⟨x, by rw [List.getLast?_cons_cons]; exact hx,
        List.mem_cons_of_mem _ hmem⟩

/-- Unfolding of `RectangleCompositeNode.display` on a non-root composite. -/
theorem rectDisplay_comp_nz (a : Icons) (b : Option (List Char)) (cs : PNodeList)
    (lv : Nat) (pre : List Char) (isL : Bool) (h : lv ≠ 0) :
    rectDisplay (.comp a b cs lv) pre isL =
      match rectLoop cs (pre ++ "│  ".data) with
      | .error e => .error e
      | .ok body => .ok (some (pythonRstrip
          ((pre ++ "├─".data ++ a.1 ++ keyStr b
            ++ fill (rowLength - (pre ++ "├─".data ++ a.1 ++ keyStr b).length - 1)
            ++ "─┤".data ++ ['\n']) ++ body))) := by
  simp only [rectDisplay, if_neg h]

mutual
/-- With nonzero levels and fitting rows, a non-root rectangle display
succeeds and returns a `'\n'`-join of well-formed 61-character lines. -/
theorem rectGood (n : PNode) (pre : List Char) (isLast : Bool)
    (hz : allNZ n = true) (hf : rectOK pre n = true) :
    ∃ L, rectDisplay n pre isLast = .ok (some (joinNL L)) ∧ L ≠ [] ∧
      ∀ ℓ ∈ L, rectLine ℓ = true := by
  cases n with
  | leaf ic key value lv =>
      cases value with
      | none =>
          simp only [rectOK, Bool.and_eq_true, decide_eq_true_eq] at hf
          have hlen_eq : (pre ++ conn isLast ++ ic.2 ++ keyStr key).length
              = (pre ++ conn true ++ ic.2 ++ keyStr key).length := by
            cases isLast <;> simp [conn]
          have hfit : (pre ++ conn isLast ++ ic.2 ++ keyStr key).length < rowLength := by
            rw [hlen_eq]
            exact hf.2
          have hfree : nlFree (pre ++ conn isLast ++ ic.2 ++ keyStr key) = true := by
            rw [nlFree_append, nlFree_append, nlFree_append,
              hf.1.1.1, nlFree_conn, hf.1.1.2, hf.1.2]
            rfl
          refine ⟨[(pre ++ conn isLast ++ ic.2 ++ keyStr key)
            ++ fill (rowLength - (pre ++ conn isLast ++ ic.2 ++ keyStr key).length - 1)
            ++ "─┤".data], ?_, by simp, ?_⟩
          · simp only [rectDisplay]
            rw [if_pos hfit]
            rfl
          · intro ℓ hl
            rw [List.mem_singleton.mp hl]
            exact rectLine_pad _ hfit hfree
      | some v =>
          simp only [rectOK, Bool.and_eq_true, decide_eq_true_eq] at hf
          have hlen_eq : (pre ++ conn isLast ++ ic.2 ++ keyStr key ++ ": ".data ++ v).length
              = (pre ++ conn true ++ ic.2 ++ keyStr key ++ ": ".data ++ v).length := by
            cases isLast <;> simp [conn]
          have hfit : (pre ++ conn isLast ++ ic.2 ++ keyStr key ++ ": ".data ++ v).length
              < rowLength := by
            rw [hlen_eq]
            exact hf.2.2
          have hfree : nlFree (pre ++ conn isLast ++ ic.2 ++ keyStr key ++ ": ".data ++ v)
              = true := by
            rw [nlFree_append, nlFree_append, nlFree_append, nlFree_append, nlFree_append,
              hf.1.1.1, nlFree_conn, hf.1.1.2, hf.1.2, hf.2.1]
            rfl
          refine ⟨[(pre ++ conn isLast ++ ic.2 ++ keyStr key ++ ": ".data ++ v)
            ++ fill (rowLength
                - (pre ++ conn isLast ++ ic.2 ++ keyStr key ++ ": ".data ++ v).length - 1)
            ++ "─┤".data], ?_, by simp, ?_⟩
          · simp only [rectDisplay]
            rw [if_pos hfit]
            rfl
          · intro ℓ hl
            rw [List.mem_singleton.mp hl]
            exact rectLine_pad _ hfit hfree
  | comp ic key cs lv =>
      simp only [allNZ, Bool.and_eq_true, bne_iff_ne, ne_eq] at hz
      rw [rectOK, if_neg hz.1] at hf
      simp only [Bool.and_eq_true, decide_eq_true_eq] at hf
      obtain ⟨Lb, hloop, hPb, _⟩ := rectGoodL cs (pre ++ "│  ".data) hz.2 hf.2
      have hfitrow : (pre ++ "├─".data ++ ic.1 ++ keyStr key).length < rowLength :=
        hf.1.2
      have hfreerow : nlFree (pre ++ "├─".data ++ ic.1 ++ keyStr key) = true := by
        rw [nlFree_append, nlFree_append, nlFree_append,
          hf.1.1.1.1, hf.1.1.1.2, hf.1.1.2]
        rfl
      have hline := rectLine_pad _ hfitrow hfreerow
      refine ⟨((pre ++ "├─".data ++ ic.1 ++ keyStr key)
          ++ fill (rowLength - (pre ++ "├─".data ++ ic.1 ++ keyStr key).length - 1)
          ++ "─┤".data) :: Lb, ?_, by simp, ?_⟩
      · rw [rectDisplay_comp_nz ic key cs lv pre isLast hz.1, hloop]
        dsimp only
        have hchunks : (pre ++ "├─".data ++ ic.1 ++ keyStr key
              ++ fill (rowLength - (pre ++ "├─".data ++ ic.1 ++ keyStr key).length - 1)
              ++ "─┤".data ++ ['\n']) ++ chunks Lb
            = chunks (((pre ++ "├─".data ++ ic.1 ++ keyStr key)
              ++ fill (rowLength - (pre ++ "├─".data ++ ic.1 ++ keyStr key).length - 1)
              ++ "─┤".data) :: Lb) := by
          rw [chunks]
          simp
        rw [hchunks, chunks_eq_joinNL _ (by simp), pythonRstrip_append_nl]
        obtain ⟨x, hx, hxmem⟩ := getLast?_cons_exists _ Lb
        have hxline : rectLine x = true := by
          rcases List.mem_cons.mp hxmem with rfl | hxm
          · exact hline
          · exact hPb x hxm
        rw [rstrip_noop _ '┤' (joinNL_getLast? _ x '┤' hx (rectLine_parts x hxline).2.2)
          (by decide)]
      · intro ℓ hl
        rcases List.mem_cons.mp hl with rfl | hl2
        · exact hline
        · exact hPb ℓ hl2
  termination_by structural n

/-- The rectangle children loop returns the `'\n'`-terminated chunks of
its children's lines. -/
theorem rectGoodL (l : PNodeList) (cp : List Char)
    (hz : allNZl l = true) (hf : rectOKl cp l = true) :
    ∃ L, rectLoop l cp = .ok (chunks L) ∧ (∀ ℓ ∈ L, rectLine ℓ = true) ∧
      (l ≠ .nil → L ≠ []) := by
  cases l with
  | nil =>
      refine ⟨[], ?_, by simp, fun h => absurd rfl h⟩
      rw [rectLoop]
      rfl
  | cons c tl =>
      simp only [allNZl, Bool.and_eq_true] at hz
      simp only [rectOKl, Bool.and_eq_true] at hf
      cases tl with
      | nil =>
          obtain ⟨Lc, hdisp, hLcne, hPc⟩ := rectGood c cp true hz.1 hf.1
          refine ⟨Lc, ?_, hPc, fun _ => hLcne⟩
          rw [rectLoop, hdisp]
          dsimp only [strOpt]
          rw [chunks_eq_joinNL Lc hLcne]
      | cons d t2 =>
          obtain ⟨Lc, hdisp, hLcne, hPc⟩ := rectGood c cp false hz.1 hf.1
          obtain ⟨Ld, hld, hPd, _⟩ := rectGoodL (.cons d t2) cp hz.2 hf.2
          refine ⟨Lc ++ Ld, ?_, ?_, fun _ => by simp [hLcne]⟩
          · rw [rectLoop, hdisp, hld]
            dsimp only [strOpt]
            rw [chunks_append, chunks_eq_joinNL Lc hLcne]
          · intro ℓ hl
            rcases List.mem_append.mp hl with hl2 | hl2
            · exact hPc ℓ hl2
            · exact hPd ℓ hl2
  termination_by structural l
end

/-- Unfolding of `RectangleCompositeNode.display` on the root composite. -/
theorem rectDisplay_comp_root (a : Icons) (b : Option (List Char)) (cs : PNodeList)
    (pre : List Char) (isL : Bool) :
    rectDisplay (.comp a b cs 0) pre isL =
      match rectLoop cs (pre ++ []) with
      | .error e => .error e
      | .ok body =>
          match stitch a ([] ++ body) with
          | none => .error ()
          | some r => .ok (some (pythonRstrip r)) := rfl

/-- C3 (counterexample): for `{"a": 1, "b": 2}` with default icons the
rectangle output's lines are not 60 characters wide (they are 61). -/
theorem c3_not_60 :
    allLinesLen 60 (outOf (rectDisplay (build icDefault jTwo none) [] true)) = false := by
  decide

/-- C3 (amended): the padding arithmetic makes a fitting row exactly
`W + 1 = 61` characters wide (`fill` up to `W - 1`, then the
two-character terminator `─┤`), and for every built tree whose rows all
fit and contain no line breaks, with at least one child under the root,
every line of the rectangle render is exactly `W + 1 = 61` characters
wide — not `W = 60` as claimed. -/
theorem c3_rect_width (j : JValue) (ic : Icons)
    (hfit : rectOK [] (build ic j none) = true)
    (hkid : hasKids (build ic j none) = true) :
    (∀ row : List Char, row.length < rowLength →
      (row ++ fill (rowLength - row.length - 1) ++ "─┤".data).length = rowLength + 1) ∧
    ∃ s, rectDisplay (build ic j none) [] true = .ok (some s) ∧
      ∀ ℓ ∈ lines s, ℓ.length = rowLength + 1 := by
  constructor
  · intro row h
    simp only [rowLength] at h ⊢
    simp [fill]
    omega
  · have levels := build_levels ic j none
    cases hb : build ic j none with
    | leaf a k v lv =>
        rw [hb] at hkid
        simp [hasKids] at hkid
    | comp a k cs lv =>
        rw [hb] at hfit hkid
        obtain ⟨hsub, hroot⟩ := levels
        rw [hb] at hsub hroot
        simp only [rootLevelOK, beq_iff_eq] at hroot
        subst hroot
        simp only [subLevelsOne] at hsub
        cases cs with
        | nil => simp [hasKids] at hkid
        | cons c0 cst =>
            rw [rectOK, if_pos rfl] at hfit
            obtain ⟨L, hloop, hP, hnil⟩ := rectGoodL (.cons c0 cst) []
              (allNZl_of_kidsLevelsOne _ hsub) hfit
            have hLne : L ≠ [] := hnil (fun h => PNodeList.noConfusion h)
            have hm : 1 ≤ L.length := List.length_pos.mpr hLne
            rw [rectDisplay_comp_root, List.nil_append, hloop]
            dsimp only
            rw [List.nil_append]
            obtain ⟨r2, hst, hlined, c, hc, hcws⟩ := stitch_lined a L hLne hP
            rw [hst]
            dsimp only
            have hlen2 : r2.length = 62 * L.length := hlined.1
            have hnl : r2.getLast? = some '\n' := by
              rw [List.getLast?_eq_getElem?, hlen2]
              exact (hlined.2 (62 * L.length - 1) (by omega)).mpr (by omega)
            obtain ⟨ys, hys⟩ := List.getLast?_eq_some_iff.mp hnl
            have hysdl : ys = r2.dropLast := by
              rw [hys, List.dropLast_concat]
            have hclast : ys.getLast? = some c := by
              rw [hysdl, List.getLast?_eq_getElem?, List.getElem?_dropLast,
                List.length_dropLast, hlen2,
                if_pos (by omega), show 62 * L.length - 1 - 1 = 62 * L.length - 2
                  from by omega]
              exact hc
            have hrs : pythonRstrip r2 = ys := by
              rw [hys, pythonRstrip_append_nl,
                rstrip_noop ys c hclast hcws]
            refine ⟨ys, by rw [hrs], ?_⟩
            intro ℓ hl
            have := lines_dropLast_of_LinedP L.length r2 hlined hm ℓ
              (by rw [← hysdl]; exact hl)
            rw [this]
            rfl

/-- C3 (witness): the amended width theorem applied to `{"a": 1, "b": 2}`
with the default icons. -/
theorem c3_rect_width_witness :
    rectOK [] (build icDefault jTwo none) = true ∧
    hasKids (build icDefault jTwo none) = true ∧
    ((∀ row : List Char, row.length < rowLength →
      (row ++ fill (rowLength - row.length - 1) ++ "─┤".data).length = rowLength + 1) ∧
    ∃ s, rectDisplay (build icDefault jTwo none) [] true = .ok (some s) ∧
      ∀ ℓ ∈ lines s, ℓ.length = rowLength + 1) :=
  ⟨by decide, by decide, c3_rect_width jTwo icDefault (by decide) (by decide)⟩

end FJE
